import Mathlib

/-!
Verification of the mCODE FHIR bundle loader (load_mcode.py).

The script preprocesses FHIR Bundle JSON documents through four transforms
(purge_duplicates, remove_provenance, standardize_references,
add_if_none_exist_clause) and uploads them in three phases.  We embed the
JSON data model, the four transforms (including the text-level regex
rewrite of standardize_references, via a JSON serializer, the regex
substitution of re.sub, and a JSON parser modelling json.loads), and the
upload loop, and prove the specified properties.
-/

set_option maxHeartbeats 2000000
set_option maxRecDepth 16384

deriving instance DecidableEq for Except

namespace Mcode

mutual
/-- JSON documents as handled by Python's json module: objects are
insertion-ordered key/value sequences (Python dicts), numbers are kept as
their raw token text (the script never inspects numeric values).  Arrays
and objects use their own list types so that all recursive functions are
structural and kernel-reducible. -/
inductive Json where
  | null : Json
  | bool (b : Bool) : Json
  | num (raw : List Char) : Json
  | str (s : String) : Json
  | arr (xs : JList) : Json
  | obj (kvs : JObj) : Json
deriving DecidableEq
inductive JList where
  | nil : JList
  | cons (hd : Json) (tl : JList) : JList
deriving DecidableEq
inductive JObj where
  | nil : JObj
  | cons (k : String) (v : Json) (tl : JObj) : JObj
deriving DecidableEq
end

def JList.toList : JList → List Json
  | .nil => []
  | .cons x xs => x :: xs.toList

def JList.ofList : List Json → JList
  | [] => .nil
  | x :: xs => .cons x (JList.ofList xs)

def JObj.toList : JObj → List (String × Json)
  | .nil => []
  | .cons k v xs => (k, v) :: xs.toList

def JObj.ofList : List (String × Json) → JObj
  | [] => .nil
  | (k, v) :: xs => .cons k v (JObj.ofList xs)

/-- Array from a plain list (notation helper for concrete documents). -/
def jarr (xs : List Json) : Json := .arr (JList.ofList xs)

/-- Object from a plain key/value list (notation helper). -/
def jobj (kvs : List (String × Json)) : Json := .obj (JObj.ofList kvs)

/-- Python dict write semantics: writing key k updates the value in place
when k is already present (keeping its original position) and appends
(k, v) at the end otherwise. -/
def updAssoc {κ α : Type} [DecidableEq κ] : List (κ × α) → κ → α → List (κ × α)
  | [], k, v => [(k, v)]
  | (k', v') :: rest, k, v =>
    if k' = k then (k, v) :: rest else (k', v') :: updAssoc rest k v

/-- First-match association lookup (Python dict read). -/
def lookupKV {κ α : Type} [DecidableEq κ] : List (κ × α) → κ → Option α
  | [], _ => none
  | (k', v') :: rest, k => if k' = k then some v' else lookupKV rest k

/-- Python d[k] read on a dict; none models KeyError, and TypeError on a
non-dict — both abort the script. -/
def Json.get : Json → String → Option Json
  | .obj kvs, k => lookupKV kvs.toList k
  | _, _ => none

/-- Python d[k] = v write on a dict (all call sites in the script have
checked that the target is a dict before writing). -/
def Json.set : Json → String → Json → Json
  | .obj kvs, k, v => .obj (JObj.ofList (updAssoc kvs.toList k v))
  | j, _, _ => j

def Json.isObj : Json → Bool
  | .obj _ => true
  | _ => false

/-- Errors the script can raise while preprocessing a payload:
malformedInput models KeyError/TypeError/IndexError on a document lacking
an expected field, serializationError models json.loads failing on the
rewritten text. -/
inductive PErr where
  | malformedInput : PErr
  | serializationError : PErr
deriving DecidableEq

/-! ### purge_duplicates (load_mcode.py lines 22-25) -/

/-- The key/value pairs of the dict comprehension
open-brace each["fullUrl"]: each for each in entry close-brace,
read left to right; a missing fullUrl raises KeyError. -/
def entryUrlPairs : List Json → Except PErr (List (Json × Json))
  | [] => .ok []
  | e :: rest =>
    match e.get "fullUrl" with
    | some u => (entryUrlPairs rest).map (fun ps => (u, e) :: ps)
    | none => .error .malformedInput

/-- Building the comprehension's dict: later pairs with the same key
overwrite the stored value in place (Python 3.7+ dict semantics). -/
def dictOf (ps : List (Json × Json)) : List (Json × Json) :=
  ps.foldl (fun acc p => updAssoc acc p.1 p.2) []

/-- purge_duplicates(d): entry = d["entry"]; unique = dict-comprehension
keyed by fullUrl; d["entry"] = list(unique.values()). -/
def purge_duplicates (d : Json) : Except PErr Json :=
  match d.get "entry" with
  | some (.arr es) =>
    (entryUrlPairs es.toList).map
      (fun ps => d.set "entry" (jarr ((dictOf ps).map (fun p => p.2))))
  | _ => .error .malformedInput

/-! ### remove_provenance (load_mcode.py lines 28-34) -/

/-- The loop's test e["resource"]["resourceType"] == "Provenance";
a missing resource or resourceType raises (KeyError/TypeError). -/
def isProvE (e : Json) : Except PErr Bool :=
  match e.get "resource" with
  | some r =>
    match r.get "resourceType" with
    | some t => .ok (t = Json.str "Provenance")
    | none => .error .malformedInput
  | none => .error .malformedInput

/-- The for-loop of remove_provenance: iterate over a copy (todo) of the
original entry list, removing from the live list (cur) the first element
equal to each Provenance entry (Python list.remove).  On the actual call
(todo = cur initially) a matching element always exists, so modelling
removal with List.erase is exact. -/
def removeLoop : List Json → List Json → Except PErr (List Json)
  | [], cur => .ok cur
  | e :: todo, cur => do
    let b ← isProvE e
    removeLoop todo (if b then cur.erase e else cur)

/-- remove_provenance(p): loop over list(entry) removing Provenance
entries, then p["entry"] = entry. -/
def remove_provenance (p : Json) : Except PErr Json :=
  match p.get "entry" with
  | some (.arr es) =>
    (removeLoop es.toList es.toList).map (fun l => p.set "entry" (jarr l))
  | _ => .error .malformedInput

/-! ### add_if_none_exist_clause (load_mcode.py lines 49-77) -/

def syntheaUrl : String := "https://github.com/synthetichealth/synthea"

/-- Python len() on a JSON value: length of a list, dict, or string; a
TypeError (len of number/bool/None) is reported as none. -/
def lenOf : Json → Option Nat
  | .arr xs => some xs.toList.length
  | .obj kvs => some kvs.toList.length
  | .str s => some s.length
  | _ => none

/-- Python v[0]: first element of a list, one-character string of a
string; anything else (dict, number, ...) raises. -/
def index0 : Json → Except PErr Json
  | .arr (.cons x _) => .ok x
  | .str s => if s.length > 0 then .ok (.str (s.take 1)) else .error .malformedInput
  | _ => .error .malformedInput

/-- Python repr() of a string: the text wrapped in single quotes. -/
def pyQuote (s : String) : String :=
  String.mk [Char.ofNat 39] ++ s ++ String.mk [Char.ofNat 39]

mutual
/-- Python str() of a value, as interpolated by the f-string building
query_term.  Strings pass through; other values render as Python would
print them (the script only ever interpolates strings here, but the
f-string itself never fails). -/
def pyStr : Json → String
  | .null => "None"
  | .bool true => "True"
  | .bool false => "False"
  | .num r => String.mk r
  | .str s => s
  | .arr xs => "[" ++ pyReprElems xs ++ "]"
  | .obj kvs =>
    String.mk [Char.ofNat 123] ++ pyReprMembers kvs ++ String.mk [Char.ofNat 125]
def pyRepr : Json → String
  | .str s => pyQuote s
  | .null => "None"
  | .bool true => "True"
  | .bool false => "False"
  | .num r => String.mk r
  | .arr xs => "[" ++ pyReprElems xs ++ "]"
  | .obj kvs =>
    String.mk [Char.ofNat 123] ++ pyReprMembers kvs ++ String.mk [Char.ofNat 125]
def pyReprElems : JList → String
  | .nil => ""
  | .cons x .nil => pyRepr x
  | .cons x tl => pyRepr x ++ ", " ++ pyReprElems tl
def pyReprMembers : JObj → String
  | .nil => ""
  | .cons k v .nil => pyQuote k ++ ": " ++ pyRepr v
  | .cons k v tl => pyQuote k ++ ": " ++ pyRepr v ++ ", " ++ pyReprMembers tl
end

/-- The body of add_if_none_exist_clause's loop for one entry: read
resource, request and resourceType, pick or synthesize the identifier,
build query_term and store it under request["ifNoneExist"], and write
resource and request back into the entry. -/
def processEntry (e : Json) : Except PErr Json := do
  let some resource := e.get "resource" | .error .malformedInput
  let some request := e.get "request" | .error .malformedInput
  let some resource_type := resource.get "resourceType" | .error .malformedInput
  let pick : Except PErr (Json × Json) :=
    match resource.get "identifier" with
    | some idv =>
      match lenOf idv with
      | none => .error .malformedInput
      | some n =>
        if n > 0 then do
          let ident ← index0 idv
          .ok (resource, ident)
        else
          match resource.get "id" with
          | some idval =>
            let ident := jobj [("system", .str syntheaUrl), ("value", idval)]
            .ok (resource.set "identifier" (jarr [ident]), ident)
          | none => .error .malformedInput
    | none =>
      match resource.get "id" with
      | some idval =>
        let ident := jobj [("system", .str syntheaUrl), ("value", idval)]
        .ok (resource.set "identifier" (jarr [ident]), ident)
      | none => .error .malformedInput
  let (resource', ident) ← pick
  let some system := ident.get "system" | .error .malformedInput
  let some value := ident.get "value" | .error .malformedInput
  let query_term :=
    pyStr resource_type ++ "?identifier=" ++ pyStr system ++ "|" ++ pyStr value
  if request.isObj then
    let request' := request.set "ifNoneExist" (.str query_term)
    .ok ((e.set "resource" resource').set "request" request')
  else .error .malformedInput

/-- add_if_none_exist_clause(p): apply the loop body to every entry in
order (the loop writes each updated entry back at its index, so the
result is an index-wise map; an exception aborts the whole call). -/
def add_if_none_exist_clause (p : Json) : Except PErr Json :=
  match p.get "entry" with
  | some (.arr es) =>
    (es.toList.mapM processEntry).map (fun l => p.set "entry" (jarr l))
  | _ => .error .malformedInput

/-! ### Text layer: json.dumps, the REFERENCE_REGEX substitution of
re.sub (load_mcode.py lines 18-19 and 37-46), and json.loads. -/

def toL (s : String) : List Char := s.data

def lbrace : Char := Char.ofNat 123

def rbrace : Char := Char.ofNat 125

/-- Python regex class \s (ASCII part): space, tab, newline, carriage
return, vertical tab, form feed. -/
def pySpace (c : Char) : Bool :=
  c = ' ' || c = '\t' || c = '\n' || c = '\r' || c = Char.ofNat 11 || c = Char.ofNat 12

/-- Python regex class \w (ASCII part): letters, digits, underscore. -/
def wordChar (c : Char) : Bool := c.isAlpha || c.isDigit || c = '_'

/-- Lowercase hex digit, as in UUID_REGEX's [0-9a-f]. -/
def hexLower (c : Char) : Bool := c.isDigit || ('a' ≤ c && c ≤ 'f')

/-- Hex digit of any case, for the parser's \uXXXX escapes. -/
def hexAny (c : Char) : Bool := c.isDigit || ('a' ≤ c && c ≤ 'f') || ('A' ≤ c && c ≤ 'F')

def hexVal (c : Char) : Nat :=
  if c.isDigit then c.toNat - 48
  else if 'a' ≤ c && c ≤ 'f' then c.toNat - 87
  else c.toNat - 55

def hexDigit (n : Nat) : Char :=
  if n < 10 then Char.ofNat (48 + n) else Char.ofNat (87 + n)

/-- Characters of a JSON number token and its possible first characters
(the parser model reads a maximal run of these). -/
def numChar (c : Char) : Bool :=
  c.isDigit || c = '-' || c = '+' || c = '.' || c = 'e' || c = 'E'

def numHead (c : Char) : Bool := c.isDigit || c = '-'

/-- JSON whitespace skipped by the parser. -/
def jsonWs (c : Char) : Bool := c = ' ' || c = '\t' || c = '\n' || c = '\r'

/-- json.dumps escaping of one character (default ensure_ascii=True):
quote, backslash and the control shorthands get two-character escapes,
other control or non-ASCII characters get a \uXXXX escape (codepoints
beyond 0xFFFF would use surrogate pairs in Python; the well-formed
fragment the theorems quantify over contains printable ASCII only). -/
def escapeChar (c : Char) : List Char :=
  if c = '"' then ['\\', '"']
  else if c = '\\' then ['\\', '\\']
  else if c = '\n' then ['\\', 'n']
  else if c = '\t' then ['\\', 't']
  else if c = '\r' then ['\\', 'r']
  else if c = Char.ofNat 8 then ['\\', 'b']
  else if c = Char.ofNat 12 then ['\\', 'f']
  else if c.toNat < 32 || 126 < c.toNat then
    let n := c.toNat
    ['\\', 'u', hexDigit (n / 4096 % 16), hexDigit (n / 256 % 16),
      hexDigit (n / 16 % 16), hexDigit (n % 16)]
  else [c]

def escapeStr : List Char → List Char
  | [] => []
  | c :: cs => escapeChar c ++ escapeStr cs

mutual
/-- json.dumps with the default separators: elements joined by comma
space, keys and values joined by colon space. -/
def dumpsJ : Json → List Char
  | .null => toL "null"
  | .bool true => toL "true"
  | .bool false => toL "false"
  | .num r => r
  | .str s => '"' :: (escapeStr s.data ++ ['"'])
  | .arr xs => '[' :: (dumpsElems xs ++ [']'])
  | .obj kvs => lbrace :: (dumpsMembers kvs ++ [rbrace])
def dumpsElems : JList → List Char
  | .nil => []
  | .cons x .nil => dumpsJ x
  | .cons x (.cons y tl) => dumpsJ x ++ ',' :: ' ' :: dumpsElems (.cons y tl)
def dumpsMembers : JObj → List Char
  | .nil => []
  | .cons k v .nil => '"' :: (escapeStr k.data ++ '"' :: ':' :: ' ' :: dumpsJ v)
  | .cons k v (.cons k2 v2 tl) =>
    ('"' :: (escapeStr k.data ++ '"' :: ':' :: ' ' :: dumpsJ v)) ++
      ',' :: ' ' :: dumpsMembers (.cons k2 v2 tl)
end

/-- One dumped key/value member, written "key": value. -/
def dumpsKV (k : String) (v : Json) : List Char :=
  '"' :: (escapeStr k.data ++ '"' :: ':' :: ' ' :: dumpsJ v)

/-- Consume an exact literal at the head of the text. -/
def dropLit : List Char → List Char → Option (List Char)
  | [], cs => some cs
  | l :: ls, c :: cs => if c = l then dropLit ls cs else none
  | _ :: _, [] => none

/-- The text "reference" in double quotes, the literal head of
REFERENCE_REGEX. -/
def refKeyLit : List Char := '"' :: (toL "reference" ++ ['"'])

/-- Read exactly n lowercase hex digits. -/
def hexTake : Nat → List Char → Option (List Char × List Char)
  | 0, cs => some ([], cs)
  | n + 1, c :: cs =>
    if hexLower c then (hexTake n cs).map (fun p => (c :: p.1, p.2)) else none
  | _ + 1, [] => none

/-- Match UUID_REGEX: 8-4-4-4-12 lowercase hex groups joined by
hyphens; returns the 36 matched characters and the rest. -/
def matchUuid (cs : List Char) : Option (List Char × List Char) := do
  let (h1, cs) ← hexTake 8 cs
  let cs ← dropLit ['-'] cs
  let (h2, cs) ← hexTake 4 cs
  let cs ← dropLit ['-'] cs
  let (h3, cs) ← hexTake 4 cs
  let cs ← dropLit ['-'] cs
  let (h4, cs) ← hexTake 4 cs
  let cs ← dropLit ['-'] cs
  let (h5, cs) ← hexTake 12 cs
  some (h1 ++ '-' :: h2 ++ '-' :: h3 ++ '-' :: h4 ++ '-' :: h5, cs)

/-- A successful match of REFERENCE_REGEX at the head of the text:
the two \s* stretches, group(1)'s word (without its slash), the UUID,
and the unconsumed rest. -/
structure RefMatch where
  ws1 : List Char
  ws2 : List Char
  word : List Char
  uuid : List Char
  rest : List Char
deriving DecidableEq

/-- Attempt REFERENCE_REGEX at the head of the text (the regex engine
tries the pattern at each position; \w+ is maximal since a slash is not a
word character, so the match is deterministic). -/
def tryMatch (cs : List Char) : Option RefMatch := do
  let cs ← dropLit refKeyLit cs
  let ws1 := cs.takeWhile pySpace
  let cs := cs.dropWhile pySpace
  let cs ← dropLit [':'] cs
  let ws2 := cs.takeWhile pySpace
  let cs := cs.dropWhile pySpace
  let cs ← dropLit ['"'] cs
  let w := cs.takeWhile wordChar
  let cs := cs.dropWhile wordChar
  if w = [] then none
  else do
    let cs ← dropLit ['/'] cs
    let (u, cs) ← matchUuid cs
    let cs ← dropLit ['"'] cs
    some ⟨ws1, ws2, w, u, cs⟩

/-- The regex group(0) of a match. -/
def matchedText (m : RefMatch) : List Char :=
  refKeyLit ++ m.ws1 ++ ':' :: m.ws2 ++ '"' :: m.word ++ '/' :: m.uuid ++ ['"']

/-- Python str.replace: replace every (leftmost, non-overlapping)
occurrence of pat in the text by rep.  Fueled by the text length; an
empty pat never arises from a RefMatch (its group(1) holds a nonempty
word and a slash). -/
def replAllAux : Nat → List Char → List Char → List Char → List Char
  | _, [], _, _ => []
  | 0, s, _, _ => s
  | f + 1, c :: cs, pat, rep =>
    match dropLit pat (c :: cs) with
    | some rest => rep ++ replAllAux f rest pat rep
    | none => c :: replAllAux f cs pat rep

def replaceAll (s pat rep : List Char) : List Char := replAllAux s.length s pat rep

/-- urnreplc (load_mcode.py lines 40-41): obj.group(0).replace(
obj.group(1), "urn:uuid:"). -/
def urnreplc (m : RefMatch) : List Char :=
  replaceAll (matchedText m) (m.word ++ ['/']) (toL "urn:uuid:")

/-- re.sub's scan: at each position try the pattern; on a match emit the
replacement and continue after the match, otherwise keep the character
and move on.  Fueled by the text length (a match consumes at least one
character, so the fuel never runs out on the initial call). -/
def substAux : Nat → List Char → List Char
  | _, [] => []
  | 0, cs => cs
  | f + 1, c :: cs =>
    match tryMatch (c :: cs) with
    | some m => urnreplc m ++ substAux f m.rest
    | none => c :: substAux f cs

def subst (cs : List Char) : List Char := substAux cs.length cs

/-- The shape of a reference string value the regex rewrites: a nonempty
\w+ word, a slash, and a canonical UUID, with nothing after it; returns
the UUID's characters. -/
def refShape (s : String) : Option (List Char) :=
  let cs := s.data
  let w := cs.takeWhile wordChar
  let cs' := cs.dropWhile wordChar
  if w = [] then none
  else
    match dropLit ['/'] cs' with
    | some cs'' =>
      match matchUuid cs'' with
      | some (u, rest) => if rest = [] then some u else none
      | none => none
    | none => none

mutual
/-- Structural description of what the text-level substitution does to a
well-formed document: every string of refShape sitting under a key
literally named "reference" becomes "urn:uuid:" followed by its UUID;
everything else is kept, recursing into arrays and objects. -/
def rewriteJ : Json → Json
  | .arr xs => .arr (rewriteL xs)
  | .obj kvs => .obj (rewriteO kvs)
  | v => v
def rewriteL : JList → JList
  | .nil => .nil
  | .cons x tl => .cons (rewriteJ x) (rewriteL tl)
def rewriteO : JObj → JObj
  | .nil => .nil
  | .cons k v tl =>
    .cons k
      (if k = "reference" then
        match v with
        | .str s =>
          match refShape s with
          | some u => Json.str ("urn:uuid:" ++ String.mk u)
          | none => rewriteJ v
        | _ => rewriteJ v
      else rewriteJ v)
      (rewriteO tl)
end

/-- The per-member rewriting rule of rewriteO, named for reuse in
statements: a refShape string under a key literally named "reference" is
rewritten, everything else is rewritten recursively (strings and other
scalars staying as they are). -/
def rwVal (k : String) (v : Json) : Json :=
  if k = "reference" then
    match v with
    | .str s =>
      match refShape s with
      | some u => Json.str ("urn:uuid:" ++ String.mk u)
      | none => rewriteJ v
    | _ => rewriteJ v
  else rewriteJ v

/-- String-body parsing for json.loads: read until the closing quote,
decoding escapes. -/
def parseStrAux : Nat → List Char → Option (List Char × List Char)
  | 0, _ => none
  | _ + 1, [] => none
  | f + 1, c :: cs =>
    if c = '"' then some ([], cs)
    else if c = '\\' then
      match cs with
      | [] => none
      | e :: cs' =>
        if e = 'u' then
          match cs' with
          | a :: b :: c2 :: d :: cs'' =>
            if hexAny a && hexAny b && hexAny c2 && hexAny d then
              (parseStrAux f cs'').map
                (fun p =>
                  (Char.ofNat
                    (hexVal a * 4096 + hexVal b * 256 + hexVal c2 * 16 + hexVal d)
                    :: p.1, p.2))
            else none
          | _ => none
        else
          let dec : Option Char :=
            if e = '"' then some '"'
            else if e = '\\' then some '\\'
            else if e = '/' then some '/'
            else if e = 'n' then some '\n'
            else if e = 't' then some '\t'
            else if e = 'r' then some '\r'
            else if e = 'b' then some (Char.ofNat 8)
            else if e = 'f' then some (Char.ofNat 12)
            else none
          match dec with
          | some c' => (parseStrAux f cs').map (fun p => (c' :: p.1, p.2))
          | none => none
    else (parseStrAux f cs).map (fun p => (c :: p.1, p.2))

def skipJWs (cs : List Char) : List Char := cs.dropWhile jsonWs

mutual
/-- Recursive-descent JSON value parser modelling json.loads; the fuel
decreases at every nesting step and every list element (loads gives it
ample fuel). -/
def parseVal : Nat → List Char → Option (Json × List Char)
  | 0, _ => none
  | f + 1, cs0 =>
    match skipJWs cs0 with
    | [] => none
    | c :: rest =>
      if c = lbrace then parseObjBody f rest
      else if c = '[' then parseArrBody f rest
      else if c = '"' then
        (parseStrAux (rest.length + 1) rest).map
          (fun p => (Json.str (String.mk p.1), p.2))
      else if c = 'n' then (dropLit (toL "ull") rest).map (fun r => (Json.null, r))
      else if c = 't' then (dropLit (toL "rue") rest).map (fun r => (Json.bool true, r))
      else if c = 'f' then (dropLit (toL "alse") rest).map (fun r => (Json.bool false, r))
      else if numHead c then
        some (Json.num (c :: rest.takeWhile numChar), rest.dropWhile numChar)
      else none
def parseArrBody : Nat → List Char → Option (Json × List Char)
  | 0, _ => none
  | f + 1, cs =>
    match skipJWs cs with
    | [] => none
    | c :: rest =>
      if c = ']' then some (jarr [], rest)
      else
        (parseElems f (c :: rest)).map (fun p => (jarr p.1, p.2))
def parseElems : Nat → List Char → Option (List Json × List Char)
  | 0, _ => none
  | f + 1, cs => do
    let (v, cs1) ← parseVal f cs
    match skipJWs cs1 with
    | [] => none
    | c :: rest =>
      if c = ',' then do
        let (vs, cs2) ← parseElems f rest
        some (v :: vs, cs2)
      else if c = ']' then some ([v], rest)
      else none
def parseObjBody : Nat → List Char → Option (Json × List Char)
  | 0, _ => none
  | f + 1, cs =>
    match skipJWs cs with
    | [] => none
    | c :: rest =>
      if c = rbrace then some (jobj [], rest)
      else
        (parseMembers f (c :: rest) []).map (fun p => (jobj p.1, p.2))
/-- Members are accumulated with Python dict write semantics (a repeated
key overwrites in place). -/
def parseMembers :
    Nat → List Char → List (String × Json) → Option (List (String × Json) × List Char)
  | 0, _, _ => none
  | f + 1, cs, acc =>
    match skipJWs cs with
    | [] => none
    | c :: rest =>
      if c = '"' then do
        let (kcs, cs1) ← parseStrAux (rest.length + 1) rest
        let cs2 ← dropLit [':'] (skipJWs cs1)
        let (v, cs3) ← parseVal f cs2
        let acc' := updAssoc acc (String.mk kcs) v
        match skipJWs cs3 with
        | [] => none
        | c2 :: rest2 =>
          if c2 = ',' then parseMembers f rest2 acc'
          else if c2 = rbrace then some (acc', rest2)
          else none
      else none
end

/-- json.loads: parse one value, require only whitespace after it.  The
fuel 3|s|+3 is ample for any parse (each unit of the parser's fuel
measure is covered by the text length with factor 3). -/
def loads (cs : List Char) : Except PErr Json :=
  match parseVal (3 * cs.length + 3) cs with
  | some (v, rest) => if skipJWs rest = [] then .ok v else .error .serializationError
  | none => .error .serializationError

/-- standardize_references (load_mcode.py lines 37-46): dump the document
to text, apply re.sub with REFERENCE_REGEX and urnreplc, and parse the
result back. -/
def standardize_references (p : Json) : Except PErr Json :=
  loads (subst (dumpsJ p))

/-- preprocess_payload (load_mcode.py lines 86-93): the four transforms
in their fixed order; purge_duplicates, remove_provenance and
add_if_none_exist_clause act on the current document, and the document is
rebound to standardize_references' return value. -/
def preprocess_payload (payload : Json) : Except PErr Json := do
  let payload ← purge_duplicates payload
  let payload ← remove_provenance payload
  let payload ← standardize_references payload
  let payload ← add_if_none_exist_clause payload
  .ok payload

/-! ### Well-formed documents -/

def plainChar (c : Char) : Bool :=
  32 ≤ c.toNat && c.toNat ≤ 126 && c ≠ '"' && c ≠ '\\'

def plainL (cs : List Char) : Bool := cs.all plainChar

/-- Keys pairwise distinct (Python dicts cannot hold duplicate keys). -/
def keysUnique : List (String × Json) → Bool
  | [] => true
  | (k, _) :: rest =>
    match lookupKV rest k with
    | some _ => false
    | none => keysUnique rest

mutual
/-- Well-formed documents: all strings (keys and values) are printable
ASCII without quote or backslash, number tokens are nonempty runs of
number characters starting like a number, and object keys are unique.
Real dumped FHIR bundles live in this fragment. -/
def wfJ : Json → Bool
  | .null => true
  | .bool _ => true
  | .num r =>
    !r.isEmpty && r.all numChar && (match r with | c :: _ => numHead c | [] => false)
  | .str s => plainL s.data
  | .arr xs => wfL xs
  | .obj kvs => wfO kvs && keysUnique kvs.toList
def wfL : JList → Bool
  | .nil => true
  | .cons x tl => wfJ x && wfL tl
def wfO : JObj → Bool
  | .nil => true
  | .cons k v tl => plainL k.data && wfJ v && wfO tl
end

mutual
/-- Fuel needed by parseVal on the dumped text of a document (each
nesting step and each element costs one unit). -/
def pFuelJ : Json → Nat
  | .arr xs => 2 + pFuelL xs
  | .obj kvs => 2 + pFuelO kvs
  | _ => 1
def pFuelL : JList → Nat
  | .nil => 0
  | .cons x tl => 1 + pFuelJ x + pFuelL tl
def pFuelO : JObj → Nat
  | .nil => 0
  | .cons _ v tl => 1 + pFuelJ v + pFuelO tl
end

/-- What can follow a dumped value inside a larger dumped document:
nothing, a comma, or a closing bracket or brace.  Used to propagate the
scan of re.sub and of the parser across concatenations. -/
def boundary (t : List Char) : Prop :=
  match t with
  | [] => True
  | c :: _ => c = ',' ∨ c = rbrace ∨ c = ']'

/-- The resource.resourceType chain of an entry. -/
def provType (e : Json) : Option Json :=
  (e.get "resource").bind (fun r => r.get "resourceType")

/-- Whether an entry is a Provenance entry. -/
def isProvB (e : Json) : Bool := decide (provType e = some (Json.str "Provenance"))

/-- Boolean list membership (kept explicit so folds over it are
insensitive to instance resolution). -/
def memB {α : Type} [DecidableEq α] (x : α) : List α → Bool
  | [] => false
  | y :: l => if y = x then true else memB x l

/-- The values of a list in first-occurrence order with duplicates
dropped. -/
def firstOccurrences {α : Type} [DecidableEq α] (l : List α) : List α :=
  l.foldl (fun acc u => if memB u acc then acc else acc ++ [u]) []

/-- The last entry of l whose fullUrl is u. -/
def lastWithUrl (l : List Json) (u : Json) : Option Json :=
  l.foldl (fun r e => if e.get "fullUrl" = some u then some e else r) none

/-! ### The upload loop (load_mcode.py lines 96-145) -/

/-- Failures upload_payload can raise: a preprocessing error, or
requests.exceptions.RequestException (transport failure from
requests.post, or HTTPError from raise_for_status on a non-2xx
response). -/
inductive RunErr where
  | pre (e : PErr) : RunErr
  | request : RunErr
deriving DecidableEq

/-- upload_payload on an already-loaded document: preprocess, then POST;
net tells whether the POST of the preprocessed payload succeeds with a
2xx status (false models both transport failure and raise_for_status). -/
def upload_payload (doc : Json) (net : Json → Bool) : Except RunErr Unit :=
  match preprocess_payload doc with
  | .ok payload => if net payload then .ok () else .error .request
  | .error e => .error (.pre e)

/-- The hospital and practitioner phases (lines 127-135): upload each
file in order; any failure propagates and aborts.  Returns the names of
the files uploaded. -/
def runStrictPhase (net : Json → Bool) : List (String × Json) → Except RunErr (List String)
  | [] => .ok []
  | (n, d) :: rest =>
    match upload_payload d net with
    | .ok _ => (runStrictPhase net rest).map (fun ns => n :: ns)
    | .error e => .error e

/-- The patient phase (lines 137-143): upload each file; a
RequestException is caught, printed as "Failed: name", and the loop
continues; any other exception propagates.  Returns the names attempted
and the failure lines printed. -/
def runPatientPhase (net : Json → Bool) :
    List (String × Json) → Except RunErr (List String × List String)
  | [] => .ok ([], [])
  | (n, d) :: rest =>
    match upload_payload d net with
    | .ok _ => (runPatientPhase net rest).map (fun p => (n :: p.1, p.2))
    | .error .request =>
      (runPatientPhase net rest).map (fun p => (n :: p.1, ("Failed: " ++ n) :: p.2))
    | .error (.pre e) => .error (.pre e)

/-- main's three phases in order (hospital files, practitioner files,
patient files); returns the uploaded/attempted names per phase and the
printed failure lines. -/
def runMain (net : Json → Bool) (hosp pract pat : List (String × Json)) :
    Except RunErr (List String × List String × List String × List String) := do
  let h ← runStrictPhase net hosp
  let p ← runStrictPhase net pract
  let (a, f) ← runPatientPhase net pat
  .ok (h, p, a, f)

/-! ### Store-passing embedding of the transforms' effects.

The three mutating transforms update the document object they are handed
(and return None); standardize_references instead builds a fresh document
with json.loads and returns it.  We make this observable with an explicit
store of document objects addressed by index. -/

/-- purge_duplicates as an effect on a store: update the document at i in
place, return nothing. -/
def purge_duplicates_st (s : List Json) (i : Nat) : Except PErr (List Json) :=
  match s[i]? with
  | some d => (purge_duplicates d).map (fun d' => s.set i d')
  | none => .error .malformedInput

/-- remove_provenance as an effect on a store. -/
def remove_provenance_st (s : List Json) (i : Nat) : Except PErr (List Json) :=
  match s[i]? with
  | some d => (remove_provenance d).map (fun d' => s.set i d')
  | none => .error .malformedInput

/-- add_if_none_exist_clause as an effect on a store. -/
def add_if_none_exist_clause_st (s : List Json) (i : Nat) : Except PErr (List Json) :=
  match s[i]? with
  | some d => (add_if_none_exist_clause d).map (fun d' => s.set i d')
  | none => .error .malformedInput

/-- standardize_references as an effect on a store: json.loads allocates
a fresh document, the argument document is not written; the index of the
fresh document is returned (the function's return value). -/
def standardize_references_st (s : List Json) (i : Nat) : Except PErr (List Json × Nat) :=
  match s[i]? with
  | some d => (standardize_references d).map (fun v => (s ++ [v], s.length))
  | none => .error .malformedInput

/-- preprocess_payload as an effect on a store: the first two transforms
mutate the document at i, the orchestrator rebinds its payload variable
to standardize_references' fresh document, and the last transform mutates
that fresh document, whose index is returned. -/
def preprocess_payload_st (s : List Json) (i : Nat) : Except PErr (List Json × Nat) := do
  let s ← purge_duplicates_st s i
  let s ← remove_provenance_st s i
  let (s, j) ← standardize_references_st s i
  let s ← add_if_none_exist_clause_st s j
  .ok (s, j)

/-- Last-write lookup over a pair list (what a left fold of dict writes
reads back). -/
def lastKV {κ α : Type} [DecidableEq κ] (ps : List (κ × α)) (k : κ) : Option α :=
  ps.foldl (fun r p => if p.1 = k then some p.2 else r) none

/-- The ordering-scenario bundle: two entries sharing one fullUrl, one
Provenance entry, and a relative reference from the surviving Observation
to the surviving Patient. -/
def scenarioBundle : Json :=
  jobj [("resourceType", .str "Bundle"), ("entry", jarr [
    jobj [("fullUrl", .str "urn:uuid:550e8400-e29b-41d4-a716-446655440000"),
          ("resource", jobj [("resourceType", .str "Patient"),
            ("id", .str "550e8400-e29b-41d4-a716-446655440000")]),
          ("request", jobj [("method", .str "POST")])],
    jobj [("fullUrl", .str "urn:uuid:550e8400-e29b-41d4-a716-446655440000"),
          ("resource", jobj [("resourceType", .str "Patient"),
            ("id", .str "550e8400-e29b-41d4-a716-446655440000"), ("active", .bool true)]),
          ("request", jobj [("method", .str "POST")])],
    jobj [("fullUrl", .str "urn:uuid:00000000-0000-0000-0000-000000000001"),
          ("resource", jobj [("resourceType", .str "Provenance"),
            ("id", .str "00000000-0000-0000-0000-000000000001")]),
          ("request", jobj [("method", .str "POST")])],
    jobj [("fullUrl", .str "urn:uuid:00000000-0000-0000-0000-000000000002"),
          ("resource", jobj [("resourceType", .str "Observation"),
            ("id", .str "00000000-0000-0000-0000-000000000002"),
            ("subject", jobj [("reference",
              .str "Patient/550e8400-e29b-41d4-a716-446655440000")])]),
          ("request", jobj [("method", .str "POST")])]])]

/-- An entry's resource carries a nonempty identifier list. -/
def hasNonemptyIdentifier (e : Json) : Bool :=
  match (e.get "resource").bind (fun r => r.get "identifier") with
  | some (.arr (.cons _ _)) => true
  | _ => false

/-- An entry's request carries an ifNoneExist clause. -/
def hasIfNoneExist (e : Json) : Bool :=
  ((e.get "request").bind (fun rq => rq.get "ifNoneExist")).isSome

/-- The entries the pipeline produces from scenarioBundle. -/
def scenarioResultEntries : List Json :=
  [jobj [("fullUrl", .str "urn:uuid:550e8400-e29b-41d4-a716-446655440000"),
    ("resource", jobj [("resourceType", .str "Patient"),
      ("id", .str "550e8400-e29b-41d4-a716-446655440000"), ("active", .bool true),
      ("identifier", jarr [jobj [("system", .str "https://github.com/synthetichealth/synthea"),
        ("value", .str "550e8400-e29b-41d4-a716-446655440000")]])]),
    ("request", jobj [("method", .str "POST"), ("ifNoneExist",
      .str "Patient?identifier=https://github.com/synthetichealth/synthea|550e8400-e29b-41d4-a716-446655440000")])],
   jobj [("fullUrl", .str "urn:uuid:00000000-0000-0000-0000-000000000002"),
    ("resource", jobj [("resourceType", .str "Observation"),
      ("id", .str "00000000-0000-0000-0000-000000000002"),
      ("subject", jobj [("reference",
        .str "urn:uuid:550e8400-e29b-41d4-a716-446655440000")]),
      ("identifier", jarr [jobj [("system", .str "https://github.com/synthetichealth/synthea"),
        ("value", .str "00000000-0000-0000-0000-000000000002")]])]),
    ("request", jobj [("method", .str "POST"), ("ifNoneExist",
      .str "Observation?identifier=https://github.com/synthetichealth/synthea|00000000-0000-0000-0000-000000000002")])]]

/-! ## Theorems -/

theorem except_bind_ok {ε α β : Type} (a : α) (f : α → Except ε β) :
    (Except.ok a >>= f : Except ε β) = f a := rfl

theorem except_bind_error {ε α β : Type} (er : ε) (f : α → Except ε β) :
    (Except.error er >>= f : Except ε β) = Except.error er := rfl

theorem except_map_ok {ε α β : Type} (f : α → β) (a : α) :
    Except.map f (Except.ok a : Except ε α) = .ok (f a) := rfl

theorem except_map_error {ε α β : Type} (f : α → β) (er : ε) :
    Except.map f (Except.error er : Except ε α) = .error er := rfl

theorem JList.toList_ofList (l : List Json) : (JList.ofList l).toList = l := by
  induction l with
  | nil => rfl
  | cons x xs ih => simp [JList.ofList, JList.toList, ih]

theorem JList.ofList_toList : ∀ xs : JList, JList.ofList xs.toList = xs
  | .nil => rfl
  | .cons x tl => by simp [JList.ofList, JList.toList, JList.ofList_toList tl]

theorem JObj.toListOfList (l : List (String × Json)) : (JObj.ofList l).toList = l := by
  induction l with
  | nil => rfl
  | cons kv xs ih => cases kv; simp [JObj.ofList, JObj.toList, ih]

theorem JObj.ofListToList : ∀ kvs : JObj, JObj.ofList kvs.toList = kvs
  | .nil => rfl
  | .cons k v tl => by simp [JObj.ofList, JObj.toList, JObj.ofListToList tl]

section AssocLemmas

variable {κ α : Type} [DecidableEq κ]

theorem lookupKV_updAssoc_self (l : List (κ × α)) (k : κ) (v : α) :
    lookupKV (updAssoc l k v) k = some v := by
  induction l with
  | nil => simp [updAssoc, lookupKV]
  | cons p rest ih =>
    by_cases h : p.1 = k <;> simp [updAssoc, lookupKV, h, ih]

theorem lookupKV_updAssoc_ne (l : List (κ × α)) (k k' : κ) (v : α) (h : k' ≠ k) :
    lookupKV (updAssoc l k v) k' = lookupKV l k' := by
  induction l with
  | nil => simp [updAssoc, lookupKV, Ne.symm h]
  | cons p rest ih =>
    by_cases h1 : p.1 = k
    · simp [updAssoc, lookupKV, h1, Ne.symm h, h]
    · by_cases h2 : p.1 = k' <;> simp [updAssoc, lookupKV, h1, h2, h, ih]

theorem memB_iff {β : Type} [DecidableEq β] (x : β) (l : List β) :
    memB x l = true ↔ x ∈ l := by
  induction l with
  | nil => simp [memB]
  | cons y rest ih =>
    by_cases h : y = x
    · simp [memB, h]
    · simp only [memB, if_neg h, ih, List.mem_cons]
      constructor
      · exact Or.inr
      · rintro (h1 | h1)
        · exact absurd h1.symm h
        · exact h1

theorem map_fst_updAssoc (l : List (κ × α)) (k : κ) (v : α) :
    (updAssoc l k v).map Prod.fst =
      if memB k (l.map Prod.fst) then l.map Prod.fst else l.map Prod.fst ++ [k] := by
  induction l with
  | nil => simp [updAssoc, memB]
  | cons p rest ih =>
    by_cases h : p.1 = k
    · simp [updAssoc, h, memB]
    · simp only [updAssoc, if_neg h, List.map_cons, ih, memB, h, if_false]
      by_cases h2 : memB k (rest.map Prod.fst) <;> simp [h2]

theorem mem_updAssoc (l : List (κ × α)) (k : κ) (v : α) (p : κ × α)
    (hp : p ∈ updAssoc l k v) : p ∈ l ∨ p = (k, v) := by
  induction l with
  | nil => simpa [updAssoc] using hp
  | cons q rest ih =>
    by_cases h : q.1 = k
    · simp only [updAssoc, if_pos h, List.mem_cons] at hp
      rcases hp with h1 | h1
      · right; exact h1
      · left; exact List.mem_cons_of_mem _ h1
    · simp only [updAssoc, if_neg h, List.mem_cons] at hp
      rcases hp with h1 | h1
      · left; simp [h1]
      · rcases ih h1 with h2 | h2
        · left; exact List.mem_cons_of_mem _ h2
        · right; exact h2

theorem updAssoc_not_mem (l : List (κ × α)) (k : κ) (v : α)
    (h : k ∉ l.map Prod.fst) : updAssoc l k v = l ++ [(k, v)] := by
  induction l with
  | nil => simp [updAssoc]
  | cons p rest ih =>
    simp only [List.map_cons, List.mem_cons] at h
    push_neg at h
    simp [updAssoc, Ne.symm h.1, ih h.2]

theorem updAssoc_updAssoc_self (l : List (κ × α)) (k : κ) (v w : α) :
    updAssoc (updAssoc l k v) k w = updAssoc l k w := by
  induction l with
  | nil => simp [updAssoc]
  | cons p rest ih =>
    by_cases h : p.1 = k <;> simp [updAssoc, h, ih]

theorem updAssoc_lookup_self (l : List (κ × α)) (k : κ) (v : α)
    (h : lookupKV l k = some v) : updAssoc l k v = l := by
  induction l with
  | nil => simp [lookupKV] at h
  | cons p rest ih =>
    cases p with
    | mk a b =>
      by_cases h1 : a = k
      · simp only [lookupKV, if_pos h1] at h
        cases h
        subst h1
        simp [updAssoc]
      · simp only [lookupKV, if_neg h1] at h
        simp [updAssoc, h1, ih h]

theorem lookupKV_eq_none_iff (l : List (κ × α)) (k : κ) :
    lookupKV l k = none ↔ k ∉ l.map Prod.fst := by
  induction l with
  | nil => simp [lookupKV]
  | cons p rest ih =>
    by_cases h : p.1 = k <;> simp [lookupKV, h, ih, eq_comm (a := p.1)] <;> tauto

theorem lookupKV_mem (l : List (κ × α)) (k : κ) (v : α)
    (h : lookupKV l k = some v) : (k, v) ∈ l := by
  induction l with
  | nil => simp [lookupKV] at h
  | cons p rest ih =>
    cases p with
    | mk a b =>
      by_cases h1 : a = k
      · simp only [lookupKV, if_pos h1] at h
        cases h
        subst h1
        exact List.mem_cons_self _ _
      · simp only [lookupKV, if_neg h1] at h
        exact List.mem_cons_of_mem _ (ih h)

theorem lookupKV_of_mem_nodup (l : List (κ × α)) (k : κ) (v : α)
    (hn : (l.map Prod.fst).Nodup) (h : (k, v) ∈ l) : lookupKV l k = some v := by
  induction l with
  | nil => simp at h
  | cons p rest ih =>
    simp only [List.map_cons, List.nodup_cons] at hn
    rcases List.mem_cons.mp h with h1 | h1
    · cases h1
      simp [lookupKV]
    · have hk : p.1 ≠ k := by
        intro he
        exact hn.1 (he ▸ (List.mem_map.mpr ⟨(k, v), h1, rfl⟩))
      simp [lookupKV, hk, ih hn.2 h1]

theorem keysUnique_iff (l : List (String × Json)) :
    keysUnique l = true ↔ (l.map Prod.fst).Nodup := by
  induction l with
  | nil => simp [keysUnique]
  | cons p rest ih =>
    cases p with
    | mk k v =>
      simp only [keysUnique, List.map_cons, List.nodup_cons]
      rcases h : lookupKV rest k with _ | w
      · simp [ih, (lookupKV_eq_none_iff rest k).mp h]
      · have hmem : k ∈ rest.map Prod.fst :=
          List.mem_map.mpr ⟨(k, w), lookupKV_mem rest k w h, rfl⟩
        simp [hmem]

end AssocLemmas

theorem Json.get_some_obj (x : Json) (k : String) (v : Json)
    (h : x.get k = some v) : x.isObj = true := by
  cases x <;> simp_all [Json.get, Json.isObj]

theorem Json.isObj_set (x : Json) (k : String) (v : Json) :
    (x.set k v).isObj = x.isObj := by
  cases x <;> simp [Json.set, Json.isObj]

theorem Json.get_set_self (x : Json) (k : String) (v : Json)
    (hx : x.isObj = true) : (x.set k v).get k = some v := by
  cases x <;> simp_all [Json.set, Json.get, Json.isObj, JObj.toListOfList,
    lookupKV_updAssoc_self]

theorem Json.get_set_ne (x : Json) (k k' : String) (v : Json) (h : k' ≠ k) :
    (x.set k v).get k' = x.get k' := by
  cases x <;> simp [Json.set, Json.get, JObj.toListOfList, lookupKV_updAssoc_ne _ _ _ _ h]

theorem Json.set_set_self (x : Json) (k : String) (v w : Json) :
    (x.set k v).set k w = x.set k w := by
  cases x <;> simp [Json.set, JObj.toListOfList, updAssoc_updAssoc_self]

theorem Json.set_get_self (x : Json) (k : String) (v : Json)
    (h : x.get k = some v) : x.set k v = x := by
  cases x <;> simp_all [Json.set, Json.get]
  next kvs => rw [updAssoc_lookup_self _ _ _ h, JObj.ofListToList]

/-! ### Lemmas on the dict comprehension of purge_duplicates -/

theorem entryUrlPairs_ok (l : List Json) (h : ∀ e ∈ l, (e.get "fullUrl").isSome) :
    ∃ ps, entryUrlPairs l = .ok ps ∧ ps.map Prod.snd = l ∧
      ∀ p ∈ ps, p.2.get "fullUrl" = some p.1 := by
  induction l with
  | nil => exact ⟨[], rfl, rfl, by simp⟩
  | cons e rest ih =>
    have he := h e (List.mem_cons_self _ _)
    rcases hu : e.get "fullUrl" with _ | u
    · rw [hu] at he; simp at he
    · obtain ⟨ps, hps, hsnd, hkey⟩ := ih (fun x hx => h x (List.mem_cons_of_mem _ hx))
      refine ⟨(u, e) :: ps, ?_, by simp [hsnd], ?_⟩
      · simp [entryUrlPairs, hu, hps, Except.map]
      · intro p hp
        rcases List.mem_cons.mp hp with h1 | h1
        · subst h1; exact hu
        · exact hkey p h1

theorem entryUrlPairs_of_ok (l : List Json) (ps : List (Json × Json))
    (h : entryUrlPairs l = .ok ps) :
    ps.map Prod.snd = l ∧ ∀ p ∈ ps, p.2.get "fullUrl" = some p.1 := by
  induction l generalizing ps with
  | nil =>
    simp only [entryUrlPairs] at h
    cases h
    simp
  | cons e rest ih =>
    simp only [entryUrlPairs] at h
    rcases hu : e.get "fullUrl" with _ | u <;> rw [hu] at h
    · simp at h
    · rcases hps : entryUrlPairs rest with err | ps' <;> rw [hps] at h
      · simp [Except.map] at h
      · simp only [Except.map, Except.ok.injEq] at h
        subst h
        obtain ⟨hsnd, hkey⟩ := ih ps' hps
        refine ⟨by simp [hsnd], ?_⟩
        intro p hp
        rcases List.mem_cons.mp hp with h1 | h1
        · subst h1; exact hu
        · exact hkey p h1

theorem dictFold_map_fst (ps : List (Json × Json)) :
    ∀ acc : List (Json × Json),
      ((ps.foldl (fun acc p => updAssoc acc p.1 p.2) acc).map Prod.fst) =
        ps.foldl (fun ks p => if memB p.1 ks then ks else ks ++ [p.1]) (acc.map Prod.fst) := by
  induction ps with
  | nil => intro acc; rfl
  | cons p rest ih =>
    intro acc
    simp only [List.foldl_cons, ih, map_fst_updAssoc]

theorem lastKV_foldl_init {κ α : Type} [DecidableEq κ] (k : κ) (ps : List (κ × α)) :
    ∀ init : Option α,
      ps.foldl (fun r p => if p.1 = k then some p.2 else r) init =
        match lastKV ps k with
        | some v => some v
        | none => init := by
  induction ps with
  | nil => intro init; rfl
  | cons p rest ih =>
    intro init
    simp only [List.foldl_cons, lastKV]
    rw [ih, ih]
    by_cases h : p.1 = k <;> rcases hl : lastKV rest k with _ | w <;> simp [h, hl]

theorem dictFold_lookup (k : Json) (ps : List (Json × Json)) :
    ∀ acc : List (Json × Json),
      lookupKV (ps.foldl (fun acc p => updAssoc acc p.1 p.2) acc) k =
        match lastKV ps k with
        | some v => some v
        | none => lookupKV acc k := by
  induction ps with
  | nil => intro acc; rfl
  | cons p rest ih =>
    intro acc
    simp only [List.foldl_cons, lastKV]
    rw [ih, lastKV_foldl_init]
    by_cases h : p.1 = k
    · rcases hl : lastKV rest k with _ | w <;> simp [h, hl, lookupKV_updAssoc_self]
    · rcases hl : lastKV rest k with _ | w <;>
        simp [h, hl, lookupKV_updAssoc_ne acc p.1 k p.2 (Ne.symm h)]

theorem dictFold_mem (ps : List (Json × Json)) :
    ∀ acc : List (Json × Json), ∀ p ∈ ps.foldl (fun acc p => updAssoc acc p.1 p.2) acc,
      p ∈ acc ∨ p ∈ ps := by
  induction ps with
  | nil => intro acc p hp; exact Or.inl hp
  | cons q rest ih =>
    intro acc p hp
    rcases ih (updAssoc acc q.1 q.2) p hp with h1 | h1
    · rcases mem_updAssoc acc q.1 q.2 p h1 with h2 | h2
      · exact Or.inl h2
      · right
        rw [h2]
        exact List.mem_cons_self _ _
    · right; exact List.mem_cons_of_mem _ h1

theorem firstOccurrences_foldl_nodup {α : Type} [DecidableEq α] (l : List α) :
    ∀ acc : List α, acc.Nodup →
      (l.foldl (fun acc u => if memB u acc then acc else acc ++ [u]) acc).Nodup := by
  induction l with
  | nil => intro acc h; exact h
  | cons x rest ih =>
    intro acc h
    simp only [List.foldl_cons]
    by_cases hx : x ∈ acc
    · simpa [(memB_iff x acc).mpr hx] using ih acc h
    · have h2 : (acc ++ [x]).Nodup := by simp [List.nodup_append, h, hx]
      have h3 : memB x acc = false := by
        rcases hb : memB x acc
        · rfl
        · exact absurd ((memB_iff x acc).mp hb) hx
      simpa [h3] using ih _ h2

theorem firstOccurrences_nodup {α : Type} [DecidableEq α] (l : List α) :
    (firstOccurrences l).Nodup :=
  firstOccurrences_foldl_nodup l [] List.nodup_nil

theorem firstOccurrences_foldl_mem {α : Type} [DecidableEq α] (l : List α) (x : α) :
    ∀ acc : List α,
      (x ∈ l.foldl (fun acc u => if memB u acc then acc else acc ++ [u]) acc ↔
        x ∈ acc ∨ x ∈ l) := by
  induction l with
  | nil => intro acc; simp
  | cons y rest ih =>
    intro acc
    simp only [List.foldl_cons]
    by_cases hy : y ∈ acc
    · rw [if_pos ((memB_iff y acc).mpr hy), ih]
      constructor
      · rintro (h | h)
        · exact Or.inl h
        · exact Or.inr (List.mem_cons_of_mem _ h)
      · rintro (h | h)
        · exact Or.inl h
        · rcases List.mem_cons.mp h with h1 | h1
          · exact Or.inl (h1 ▸ hy)
          · exact Or.inr h1
    · rw [if_neg (fun hc => hy ((memB_iff y acc).mp hc)), ih]
      simp only [List.mem_append, List.mem_cons, List.mem_singleton]
      tauto

theorem mem_firstOccurrences {α : Type} [DecidableEq α] (l : List α) (x : α) :
    x ∈ firstOccurrences l ↔ x ∈ l := by
  rw [firstOccurrences, firstOccurrences_foldl_mem]
  simp

theorem lastWithUrl_foldl_eq (u : Json) (ps : List (Json × Json))
    (hp : ∀ p ∈ ps, p.2.get "fullUrl" = some p.1) :
    ∀ init : Option Json,
      ps.foldl (fun r p => if p.2.get "fullUrl" = some u then some p.2 else r) init =
        ps.foldl (fun r p => if p.1 = u then some p.2 else r) init := by
  induction ps with
  | nil => intro init; rfl
  | cons p rest ih =>
    intro init
    have hkey := hp p (List.mem_cons_self _ _)
    have hcond : (p.2.get "fullUrl" = some u) = (p.1 = u) := by
      rw [hkey]; simp
    simp only [List.foldl_cons, hcond]
    exact ih (fun q hq => hp q (List.mem_cons_of_mem _ hq)) _

theorem lastWithUrl_eq_lastKV (u : Json) (ps : List (Json × Json))
    (hp : ∀ p ∈ ps, p.2.get "fullUrl" = some p.1) :
    lastWithUrl (ps.map Prod.snd) u = lastKV ps u := by
  rw [lastWithUrl, lastKV, List.foldl_map]
  exact lastWithUrl_foldl_eq u ps hp none

theorem memB_map_some {α : Type} [DecidableEq α] (x : α) (l : List α) :
    memB (some x) (l.map some) = memB x l := by
  induction l with
  | nil => rfl
  | cons y rest ih =>
    by_cases h : y = x <;> simp [memB, h, ih]

theorem firstOccurrences_map_some {α : Type} [DecidableEq α] (l : List α) :
    firstOccurrences (l.map some) = (firstOccurrences l).map some := by
  have key : ∀ acc : List α,
      (l.map some).foldl (fun acc u => if memB u acc then acc else acc ++ [u]) (acc.map some) =
        (l.foldl (fun acc u => if memB u acc then acc else acc ++ [u]) acc).map some := by
    induction l with
    | nil => intro acc; rfl
    | cons x rest ih =>
      intro acc
      simp only [List.map_cons, List.foldl_cons, memB_map_some]
      by_cases hx : memB x acc = true
      · rw [if_pos hx, if_pos hx]
        exact ih acc
      · rw [if_neg hx, if_neg hx,
          show acc.map some ++ [some x] = (acc ++ [x]).map some by simp]
        exact ih (acc ++ [x])
  rw [firstOccurrences, firstOccurrences]
  simpa using key []

theorem dictFold_nodup_app (ps : List (Json × Json)) :
    ∀ acc : List (Json × Json), (((acc ++ ps).map Prod.fst).Nodup) →
      ps.foldl (fun acc p => updAssoc acc p.1 p.2) acc = acc ++ ps := by
  induction ps with
  | nil => intro acc _; simp
  | cons p rest ih =>
    intro acc hn
    have hnot : p.1 ∉ acc.map Prod.fst := by
      simp only [List.map_append, List.nodup_append, List.map_cons, List.nodup_cons] at hn
      intro hmem
      exact hn.2.2 hmem (List.mem_cons_self _ _)
    rw [List.foldl_cons, updAssoc_not_mem acc p.1 p.2 hnot,
      show (acc ++ [(p.1, p.2)]) = acc ++ [p] by simp,
      ih (acc ++ [p]) (by simpa using hn), List.append_assoc, List.singleton_append]

/-- What purge_duplicates computes, given a well-shaped entry list. -/
theorem purge_duplicates_char (d : Json) (es : JList) (ps : List (Json × Json))
    (hentry : d.get "entry" = some (.arr es))
    (hps : entryUrlPairs es.toList = .ok ps) :
    purge_duplicates d = .ok (d.set "entry" (jarr ((dictOf ps).map Prod.snd))) := by
  unfold purge_duplicates
  rw [hentry]
  dsimp only
  rw [hps]
  rfl

/-- Inversion: a successful purge_duplicates came from a well-shaped
entry list and produced the deduplicated values. -/
theorem purge_duplicates_ok_inv (d d' : Json) (h : purge_duplicates d = .ok d') :
    ∃ es ps, d.get "entry" = some (.arr es) ∧ entryUrlPairs es.toList = .ok ps ∧
      d' = d.set "entry" (jarr ((dictOf ps).map Prod.snd)) := by
  unfold purge_duplicates at h
  split at h
  next es heq =>
    rcases hps : entryUrlPairs es.toList with err | ps <;> rw [hps] at h
    · simp [Except.map] at h
    · simp only [Except.map, Except.ok.injEq] at h
      exact ⟨es, ps, heq, hps, h.symm⟩
  next _ _ => simp at h

theorem dictOf_map_fst (ps : List (Json × Json)) :
    (dictOf ps).map Prod.fst = firstOccurrences (ps.map Prod.fst) := by
  rw [dictOf, dictFold_map_fst ps [], firstOccurrences, List.foldl_map]
  rfl

theorem dictOf_nodup_fst (ps : List (Json × Json)) : ((dictOf ps).map Prod.fst).Nodup := by
  rw [dictOf_map_fst]
  exact firstOccurrences_nodup _

theorem dictOf_mem (ps : List (Json × Json)) (p : Json × Json) (hp : p ∈ dictOf ps) :
    p ∈ ps := by
  rcases dictFold_mem ps [] p hp with h | h
  · simp at h
  · exact h

theorem dictOf_lastKV (ps : List (Json × Json)) (p : Json × Json) (hp : p ∈ dictOf ps) :
    lastKV ps p.1 = some p.2 := by
  have hl : lookupKV (dictOf ps) p.1 = some p.2 :=
    lookupKV_of_mem_nodup _ _ _ (dictOf_nodup_fst ps) (by simpa using hp)
  rw [dictOf, dictFold_lookup] at hl
  rcases h : lastKV ps p.1 with _ | w <;> rw [h] at hl
  · simp [lookupKV] at hl
  · simpa using hl

/-- C1: purge_duplicates replaces the entry list with one entry per
distinct fullUrl, keeping for each URL the last entry seen with it
(Python dict writes overwrite the value), in insertion-stable order:
each URL's entry sits at the position of that URL's first occurrence
(Python dicts keep the position of the first write of a key). -/
theorem claim_C1_purge_duplicates (d : Json) (es : JList)
    (hentry : d.get "entry" = some (.arr es))
    (hurls : ∀ e ∈ es.toList, (e.get "fullUrl").isSome) :
    ∃ l' : List Json,
      purge_duplicates d = .ok (d.set "entry" (jarr l')) ∧
      l'.map (fun e => e.get "fullUrl") =
        firstOccurrences (es.toList.map (fun e => e.get "fullUrl")) ∧
      (l'.map (fun e => e.get "fullUrl")).Nodup ∧
      (∀ u : Json,
        some u ∈ l'.map (fun e => e.get "fullUrl") ↔
          some u ∈ es.toList.map (fun e => e.get "fullUrl")) ∧
      (∀ e' ∈ l', ∃ u, e'.get "fullUrl" = some u ∧ lastWithUrl es.toList u = some e') := by
  obtain ⟨ps, hps, hsnd, hkey⟩ := entryUrlPairs_ok es.toList hurls
  have hmapA : ((dictOf ps).map Prod.snd).map (fun e => e.get "fullUrl") =
      ((dictOf ps).map Prod.fst).map some := by
    rw [List.map_map, List.map_map]
    refine List.map_congr_left ?_
    intro p hp
    exact hkey p (dictOf_mem ps p hp)
  have hmapB : es.toList.map (fun e => e.get "fullUrl") = (ps.map Prod.fst).map some := by
    conv_lhs => rw [← hsnd]
    rw [List.map_map, List.map_map]
    refine List.map_congr_left ?_
    intro p hp
    exact hkey p hp
  have h2 : ((dictOf ps).map Prod.snd).map (fun e => e.get "fullUrl") =
      firstOccurrences (es.toList.map (fun e => e.get "fullUrl")) := by
    rw [hmapA, hmapB, firstOccurrences_map_some, dictOf_map_fst]
  have h3 : (((dictOf ps).map Prod.snd).map (fun e => e.get "fullUrl")).Nodup := by
    rw [hmapA]
    exact (dictOf_nodup_fst ps).map (Option.some_injective _)
  have h4 : ∀ u : Json,
      some u ∈ ((dictOf ps).map Prod.snd).map (fun e => e.get "fullUrl") ↔
        some u ∈ es.toList.map (fun e => e.get "fullUrl") := by
    intro u
    rw [hmapA, hmapB, dictOf_map_fst]
    constructor
    · intro h
      obtain ⟨k, hk, he⟩ := List.mem_map.mp h
      cases he
      exact List.mem_map_of_mem _ ((mem_firstOccurrences _ _).mp hk)
    · intro h
      obtain ⟨k, hk, he⟩ := List.mem_map.mp h
      cases he
      exact List.mem_map_of_mem _ ((mem_firstOccurrences _ _).mpr hk)
  have h5 : ∀ e' ∈ (dictOf ps).map Prod.snd,
      ∃ u, e'.get "fullUrl" = some u ∧ lastWithUrl es.toList u = some e' := by
    intro e' he'
    obtain ⟨p, hp, hpe⟩ := List.mem_map.mp he'
    subst hpe
    refine ⟨p.1, hkey p (dictOf_mem ps p hp), ?_⟩
    rw [← hsnd, lastWithUrl_eq_lastKV p.1 ps hkey]
    exact dictOf_lastKV ps p hp
  exact ⟨(dictOf ps).map Prod.snd, purge_duplicates_char d es ps hentry hps, h2, h3, h4, h5⟩

/-- C1 witness: a bundle with urls u1, u2, u1; the result keeps the last
u1 entry at the first u1 position. -/
theorem claim_C1_witness :
    ∃ l' : List Json,
      purge_duplicates
          (jobj [("entry", jarr
            [jobj [("fullUrl", .str "u1"), ("n", .num ['1'])],
             jobj [("fullUrl", .str "u2")],
             jobj [("fullUrl", .str "u1"), ("n", .num ['2'])]])]) =
        .ok ((jobj [("entry", jarr
            [jobj [("fullUrl", .str "u1"), ("n", .num ['1'])],
             jobj [("fullUrl", .str "u2")],
             jobj [("fullUrl", .str "u1"), ("n", .num ['2'])]])]).set "entry" (jarr l')) ∧
      l'.map (fun e => e.get "fullUrl") =
        firstOccurrences ((JList.ofList
            [jobj [("fullUrl", .str "u1"), ("n", .num ['1'])],
             jobj [("fullUrl", .str "u2")],
             jobj [("fullUrl", .str "u1"), ("n", .num ['2'])]]).toList.map
          (fun e => e.get "fullUrl")) ∧
      (l'.map (fun e => e.get "fullUrl")).Nodup ∧
      (∀ u : Json,
        some u ∈ l'.map (fun e => e.get "fullUrl") ↔
          some u ∈ (JList.ofList
            [jobj [("fullUrl", .str "u1"), ("n", .num ['1'])],
             jobj [("fullUrl", .str "u2")],
             jobj [("fullUrl", .str "u1"), ("n", .num ['2'])]]).toList.map
            (fun e => e.get "fullUrl")) ∧
      (∀ e' ∈ l', ∃ u, e'.get "fullUrl" = some u ∧
        lastWithUrl (JList.ofList
            [jobj [("fullUrl", .str "u1"), ("n", .num ['1'])],
             jobj [("fullUrl", .str "u2")],
             jobj [("fullUrl", .str "u1"), ("n", .num ['2'])]]).toList u = some e') :=
  claim_C1_purge_duplicates _ _ (by decide) (by decide)

/-- C2: purge_duplicates is idempotent: a second application returns the
once-purged bundle unchanged (so also equal as a set of fullUrl
values). -/
theorem claim_C2_purge_idempotent (d d' : Json)
    (h : purge_duplicates d = .ok d') : purge_duplicates d' = .ok d' := by
  obtain ⟨es, ps, hget, hps, hd'⟩ := purge_duplicates_ok_inv d d' h
  subst hd'
  obtain ⟨hsnd, hkey⟩ := entryUrlPairs_of_ok es.toList ps hps
  set l' : List Json := (dictOf ps).map Prod.snd with hl'
  have hobj : d.isObj = true := Json.get_some_obj d "entry" _ hget
  have hget' : (d.set "entry" (jarr l')).get "entry" = some (jarr l') :=
    Json.get_set_self d "entry" (jarr l') hobj
  have hurls' : ∀ e ∈ l', (e.get "fullUrl").isSome := by
    intro e he
    obtain ⟨p, hp, hpe⟩ := List.mem_map.mp he
    subst hpe
    rw [hkey p (dictOf_mem ps p hp)]
    rfl
  obtain ⟨ps2, hps2, hsnd2, hkey2⟩ := entryUrlPairs_ok l' hurls'
  have hkeys2 : ps2.map (fun p => some p.1) = l'.map (fun e => e.get "fullUrl") := by
    conv_rhs => rw [← hsnd2]
    rw [List.map_map]
    refine (List.map_congr_left ?_).symm
    intro p hp
    exact hkey2 p hp
  have hnodup2 : (ps2.map Prod.fst).Nodup := by
    have hn : (ps2.map (fun p => some p.1)).Nodup := by
      rw [hkeys2, hl']
      have hmapA : ((dictOf ps).map Prod.snd).map (fun e => e.get "fullUrl") =
          ((dictOf ps).map Prod.fst).map some := by
        rw [List.map_map, List.map_map]
        refine List.map_congr_left ?_
        intro p hp
        exact hkey p (dictOf_mem ps p hp)
      rw [hmapA]
      exact (dictOf_nodup_fst ps).map (Option.some_injective _)
    have : ps2.map (fun p => some p.1) = (ps2.map Prod.fst).map some := by
      rw [List.map_map]; rfl
    rw [this] at hn
    exact hn.of_map _
  have hdict2 : dictOf ps2 = ps2 := by
    rw [dictOf]
    simpa using dictFold_nodup_app ps2 [] (by simpa using hnodup2)
  have hjl : (JList.ofList l').toList = l' := JList.toList_ofList l'
  have hps2' : entryUrlPairs (JList.ofList l').toList = .ok ps2 := by rw [hjl]; exact hps2
  have hchar2 := purge_duplicates_char (d.set "entry" (jarr l')) (JList.ofList l') ps2
    (by rw [hget']; rfl) hps2'
  rw [hchar2, hdict2, hsnd2, Json.set_set_self]

/-- C2 witness at a concrete bundle with one duplicated url. -/
theorem claim_C2_witness :
    purge_duplicates (jobj [("entry", jarr
      [jobj [("fullUrl", .str "u1")], jobj [("fullUrl", .str "u1")]])]) =
        .ok (jobj [("entry", jarr [jobj [("fullUrl", .str "u1")]])]) ∧
    purge_duplicates (jobj [("entry", jarr [jobj [("fullUrl", .str "u1")]])]) =
      .ok (jobj [("entry", jarr [jobj [("fullUrl", .str "u1")]])]) :=
  ⟨by decide,
    claim_C2_purge_idempotent
      (jobj [("entry", jarr
        [jobj [("fullUrl", .str "u1")], jobj [("fullUrl", .str "u1")]])])
      (jobj [("entry", jarr [jobj [("fullUrl", .str "u1")]])]) (by decide)⟩

/-! ### remove_provenance: the removal loop is a filter -/

theorem isProvE_eq (e : Json) (h : (provType e).isSome) :
    isProvE e = .ok (isProvB e) := by
  unfold provType at h
  rcases hr : e.get "resource" with _ | r
  · rw [hr] at h; simp at h
  · rw [hr] at h
    rcases ht : r.get "resourceType" with _ | t
    · simp at h
      rw [ht] at h
      simp at h
    · simp [isProvE, isProvB, provType, hr, ht]

theorem removeLoop_skip (a : Json) (todo : List Json) (ha : isProvE a = .ok false) :
    ∀ cur : List Json,
      removeLoop todo (a :: cur) = (removeLoop todo cur).map (fun l => a :: l) := by
  induction todo with
  | nil => intro cur; rfl
  | cons e todo ih =>
    intro cur
    rcases hb : isProvE e with err | b
    · simp [removeLoop, hb, except_bind_error, except_map_error]
    · have hstep : ∀ c : List Json, removeLoop (e :: todo) c =
          removeLoop todo (if b then c.erase e else c) := by
        intro c
        simp [removeLoop, hb, except_bind_ok]
      rw [hstep, hstep]
      rcases b with _ | _
      · simp only [Bool.false_eq_true, if_false]
        exact ih cur
      · have hne : (a == e) = false := by
          rcases hq : a == e
          · rfl
          · have haeq : a = e := by simpa using hq
            rw [haeq, hb] at ha
            simp at ha
        simp only [if_true]
        rw [List.erase_cons_tail (by simp [hne])]
        exact ih (cur.erase e)

theorem removeLoop_filter (l : List Json) (h : ∀ e ∈ l, (provType e).isSome) :
    removeLoop l l = .ok (l.filter (fun e => !isProvB e)) := by
  induction l with
  | nil => rfl
  | cons a t ih =>
    have ha := isProvE_eq a (h a (List.mem_cons_self _ _))
    have ht : ∀ e ∈ t, (provType e).isSome := fun e he => h e (List.mem_cons_of_mem _ he)
    have hstep : removeLoop (a :: t) (a :: t) =
        removeLoop t (if isProvB a then (a :: t).erase a else a :: t) := by
      simp [removeLoop, ha, except_bind_ok]
    rcases hp : isProvB a
    · rw [hstep, hp]
      simp only [Bool.false_eq_true, if_false]
      rw [removeLoop_skip a t (hp ▸ ha), ih ht]
      simp [List.filter_cons, hp, except_map_ok]
    · rw [hstep, hp]
      simp only [if_true]
      rw [List.erase_cons_head, ih ht]
      simp [List.filter_cons, hp]

/-- C3: remove_provenance replaces entry by its filtration dropping
exactly the entries whose resource.resourceType is "Provenance": no
Provenance entry survives, every survivor was an input entry of
non-Provenance type, and the survivors keep their relative order (the
result is a sublist of the input). -/
theorem claim_C3_remove_provenance (p : Json) (es : JList)
    (hentry : p.get "entry" = some (.arr es))
    (h : ∀ e ∈ es.toList, (provType e).isSome) :
    remove_provenance p =
      .ok (p.set "entry" (jarr (es.toList.filter (fun e => !isProvB e)))) ∧
    (∀ e ∈ es.toList.filter (fun e => !isProvB e),
      provType e ≠ some (Json.str "Provenance")) ∧
    (∀ e ∈ es.toList.filter (fun e => !isProvB e), e ∈ es.toList) ∧
    List.Sublist (es.toList.filter (fun e => !isProvB e)) es.toList := by
  refine ⟨?_, ?_, ?_, List.filter_sublist _⟩
  · unfold remove_provenance
    rw [hentry]
    dsimp only
    rw [removeLoop_filter es.toList h]
    rfl
  · intro e he
    have hb := (List.mem_filter.mp he).2
    simp only [Bool.not_eq_true', isProvB] at hb
    simpa using hb
  · intro e he
    exact (List.mem_filter.mp he).1

/-- C3 witness: one Provenance entry between two others. -/
theorem claim_C3_witness :
    remove_provenance (jobj [("entry", jarr
      [jobj [("resource", jobj [("resourceType", .str "Patient")])],
       jobj [("resource", jobj [("resourceType", .str "Provenance")])],
       jobj [("resource", jobj [("resourceType", .str "Observation")])]])]) =
      .ok ((jobj [("entry", jarr
        [jobj [("resource", jobj [("resourceType", .str "Patient")])],
         jobj [("resource", jobj [("resourceType", .str "Provenance")])],
         jobj [("resource", jobj [("resourceType", .str "Observation")])]])]).set
        "entry" (jarr ((JList.ofList
          [jobj [("resource", jobj [("resourceType", .str "Patient")])],
           jobj [("resource", jobj [("resourceType", .str "Provenance")])],
           jobj [("resource", jobj [("resourceType", .str "Observation")])]]).toList.filter
          (fun e => !isProvB e)))) ∧
    (∀ e ∈ (JList.ofList
        [jobj [("resource", jobj [("resourceType", .str "Patient")])],
         jobj [("resource", jobj [("resourceType", .str "Provenance")])],
         jobj [("resource", jobj [("resourceType", .str "Observation")])]]).toList.filter
        (fun e => !isProvB e),
      provType e ≠ some (Json.str "Provenance")) ∧
    (∀ e ∈ (JList.ofList
        [jobj [("resource", jobj [("resourceType", .str "Patient")])],
         jobj [("resource", jobj [("resourceType", .str "Provenance")])],
         jobj [("resource", jobj [("resourceType", .str "Observation")])]]).toList.filter
        (fun e => !isProvB e),
      e ∈ (JList.ofList
        [jobj [("resource", jobj [("resourceType", .str "Patient")])],
         jobj [("resource", jobj [("resourceType", .str "Provenance")])],
         jobj [("resource", jobj [("resourceType", .str "Observation")])]]).toList) ∧
    List.Sublist ((JList.ofList
        [jobj [("resource", jobj [("resourceType", .str "Patient")])],
         jobj [("resource", jobj [("resourceType", .str "Provenance")])],
         jobj [("resource", jobj [("resourceType", .str "Observation")])]]).toList.filter
        (fun e => !isProvB e))
      (JList.ofList
        [jobj [("resource", jobj [("resourceType", .str "Patient")])],
         jobj [("resource", jobj [("resourceType", .str "Provenance")])],
         jobj [("resource", jobj [("resourceType", .str "Observation")])]]).toList :=
  claim_C3_remove_provenance _ _ (by decide) (by decide)

/-! ### add_if_none_exist_clause: per-entry behavior -/

/-- The synthesized identifier object for a resource id. -/
theorem processEntry_synth (e r req rt idv : Json)
    (hr : e.get "resource" = some r) (hq : e.get "request" = some req)
    (hrt : r.get "resourceType" = some rt)
    (hid : r.get "identifier" = none ∨ r.get "identifier" = some (jarr []))
    (hidv : r.get "id" = some idv)
    (hreq : req.isObj = true) :
    processEntry e = .ok ((e.set "resource"
      (r.set "identifier" (jarr [jobj [("system", .str syntheaUrl), ("value", idv)]]))).set
      "request" (req.set "ifNoneExist"
        (.str (pyStr rt ++ "?identifier=" ++ syntheaUrl ++ "|" ++ pyStr idv)))) := by
  have hsys0 : (jobj [("system", Json.str syntheaUrl), ("value", idv)]).get "system" =
      some (Json.str syntheaUrl) := by
    simp [jobj, Json.get, JObj.ofList, JObj.toList, lookupKV]
  have hval0 : (jobj [("system", Json.str syntheaUrl), ("value", idv)]).get "value" =
      some idv := by
    simp [jobj, Json.get, JObj.ofList, JObj.toList, lookupKV]
  rcases hid with hid | hid <;>
  · simp only [processEntry, hr, hq, hrt, hid, hidv, hreq, except_bind_ok,
      jarr, jobj, JList.ofList, JObj.ofList, lenOf, JList.toList, List.length_nil]
    simp only [jarr, jobj, JList.ofList, JObj.ofList] at hsys0 hval0
    simp [hsys0, hval0, pyStr, except_bind_ok]

/-- Using the first element of a pre-existing nonempty identifier list,
leaving the resource unmodified. -/
theorem processEntry_existing (e r req rt x sysv valv : Json) (xs : JList)
    (hr : e.get "resource" = some r) (hq : e.get "request" = some req)
    (hrt : r.get "resourceType" = some rt)
    (hid : r.get "identifier" = some (.arr (.cons x xs)))
    (hsys : x.get "system" = some sysv) (hval : x.get "value" = some valv)
    (hreq : req.isObj = true) :
    processEntry e = .ok ((e.set "resource" r).set "request"
      (req.set "ifNoneExist"
        (.str (pyStr rt ++ "?identifier=" ++ pyStr sysv ++ "|" ++ pyStr valv)))) := by
  simp only [processEntry, hr, hq, hrt, hid, hsys, hval, hreq, except_bind_ok,
    lenOf, index0, JList.toList, List.length_cons]
  simp [hsys, hval, except_bind_ok]

/-- Inversion of a successful processEntry: the entry had resource,
request and resourceType, the request was an object, and the result
rewrites resource and request, leaving a resource whose identifier is a
nonempty list whose head carries system and value. -/
theorem processEntry_ok_inv (e e' : Json) (h : processEntry e = .ok e') :
    ∃ r req rt resource' x xs sys val,
      e.get "resource" = some r ∧
      e.get "request" = some req ∧
      r.get "resourceType" = some rt ∧
      req.isObj = true ∧
      resource'.get "resourceType" = some rt ∧
      resource'.get "identifier" = some (.arr (.cons x xs)) ∧
      x.get "system" = some sys ∧
      x.get "value" = some val ∧
      e' = (e.set "resource" resource').set "request"
        (req.set "ifNoneExist"
          (.str (pyStr rt ++ "?identifier=" ++ pyStr sys ++ "|" ++ pyStr val))) := by
  unfold processEntry at h
  rcases hr : e.get "resource" with _ | r <;> rw [hr] at h
  · exact absurd h (by simp)
  dsimp only at h
  rcases hq : e.get "request" with _ | req <;> rw [hq] at h
  · exact absurd h (by simp)
  dsimp only at h
  rcases hrt : r.get "resourceType" with _ | rt <;> rw [hrt] at h
  · exact absurd h (by simp)
  dsimp only at h
  have hsynth : ∀ idval : Json,
      (Json.obj (JObj.cons "system" (Json.str syntheaUrl)
        (JObj.cons "value" idval JObj.nil))).get "system" = some (.str syntheaUrl) ∧
      (Json.obj (JObj.cons "system" (Json.str syntheaUrl)
        (JObj.cons "value" idval JObj.nil))).get "value" = some idval := by
    intro idval
    constructor <;> simp [Json.get, JObj.toList, lookupKV]
  -- helper handling the final part shared by all successful branches
  have hfin : ∀ (resource' x : Json) (sys val : Json),
      x.get "system" = some sys → x.get "value" = some val →
      (match x.get "system" with
        | some system =>
          match x.get "value" with
          | some value =>
            if req.isObj = true then
              Except.ok ((e.set "resource" resource').set "request"
                (req.set "ifNoneExist"
                  (Json.str (pyStr rt ++ "?identifier=" ++ pyStr system ++ "|" ++ pyStr value))))
            else Except.error PErr.malformedInput
          | _ => Except.error PErr.malformedInput
        | _ => Except.error PErr.malformedInput) = Except.ok e' →
      req.isObj = true ∧
      e' = (e.set "resource" resource').set "request"
        (req.set "ifNoneExist"
          (.str (pyStr rt ++ "?identifier=" ++ pyStr sys ++ "|" ++ pyStr val))) := by
    intro resource' x sys val hsys' hval' hm
    rw [hsys', hval'] at hm
    dsimp only at hm
    by_cases hro : req.isObj = true
    · rw [if_pos hro] at hm
      cases hm
      exact ⟨hro, rfl⟩
    · rw [if_neg hro] at hm
      exact absurd hm (by simp)
  rcases hident : r.get "identifier" with _ | idv <;> rw [hident] at h
  · -- no identifier field: synthesize from the id
    dsimp only at h
    rcases hidv : r.get "id" with _ | idval <;> rw [hidv] at h
    · exact absurd h (by simp [except_bind_error])
    · dsimp only at h
      rw [except_bind_ok] at h
      dsimp only at h
      obtain ⟨hg1, hg2⟩ := hsynth idval
      obtain ⟨hro, he'⟩ := hfin _ _ _ _ hg1 hg2 h
      refine ⟨r, req, rt,
        r.set "identifier" (jarr [jobj [("system", Json.str syntheaUrl), ("value", idval)]]),
        jobj [("system", Json.str syntheaUrl), ("value", idval)], JList.nil,
        Json.str syntheaUrl, idval, rfl, rfl, hrt, hro, ?_, ?_, hg1, hg2, he'⟩
      · rw [Json.get_set_ne r "identifier" "resourceType" _ (by decide)]
        exact hrt
      · exact Json.get_set_self r "identifier" _ (Json.get_some_obj r "resourceType" rt hrt)
  · -- identifier field present
    dsimp only at h
    rcases hlen : lenOf idv with _ | n <;> rw [hlen] at h
    · exact absurd h (by simp [except_bind_error])
    dsimp only at h
    by_cases hn : n > 0
    · rw [if_pos hn] at h
      rcases idv with _ | b | nm | s | xs | kvs
      · exact absurd hlen (by simp [lenOf])
      · exact absurd hlen (by simp [lenOf])
      · exact absurd hlen (by simp [lenOf])
      · -- a string identifier: index0 yields a string, whose get "system" is none
        rw [index0] at h
        by_cases hs : s.length > 0
        · rw [if_pos hs, except_bind_ok] at h
          exact absurd h (by simp [Json.get, except_bind_ok])
        · rw [if_neg hs, except_bind_error] at h
          exact absurd h (fun hh => Except.noConfusion hh)
      · -- an array identifier
        rcases xs with _ | ⟨x, xs'⟩
        · simp only [lenOf, JList.toList, List.length_nil, Option.some.injEq] at hlen
          omega
        · rw [index0] at h
          simp only [except_bind_ok] at h
          rcases hsys : x.get "system" with _ | sysv
          · rw [hsys] at h
            exact absurd h (by simp)
          rcases hval : x.get "value" with _ | valv
          · rw [hsys, hval] at h
            exact absurd h (by simp)
          obtain ⟨hro, he'⟩ := hfin r x sysv valv hsys hval h
          exact ⟨r, req, rt, r, x, xs', sysv, valv, rfl, rfl, hrt, hro, hrt, hident,
            hsys, hval, he'⟩
      · -- a dict identifier: index0 raises
        rw [show index0 (Json.obj kvs) = .error .malformedInput from rfl,
          except_bind_error] at h
        exact absurd h (fun hh => Except.noConfusion hh)
    · -- present but empty: synthesize from the id
      rw [if_neg hn] at h
      rcases hidv : r.get "id" with _ | idval <;> rw [hidv] at h
      · exact absurd h (by simp [except_bind_error])
      · dsimp only at h
        rw [except_bind_ok] at h
        dsimp only at h
        obtain ⟨hg1, hg2⟩ := hsynth idval
        obtain ⟨hro, he'⟩ := hfin _ _ _ _ hg1 hg2 h
        refine ⟨r, req, rt,
          r.set "identifier" (jarr [jobj [("system", Json.str syntheaUrl), ("value", idval)]]),
          jobj [("system", Json.str syntheaUrl), ("value", idval)], JList.nil,
          Json.str syntheaUrl, idval, rfl, rfl, hrt, hro, ?_, ?_, hg1, hg2, he'⟩
        · rw [Json.get_set_ne r "identifier" "resourceType" _ (by decide)]
          exact hrt
        · exact Json.get_set_self r "identifier" _ (Json.get_some_obj r "resourceType" rt hrt)

/-- Running the loop body a second time reproduces its own output: the
second run finds the identifier left by the first and rebuilds the same
conditional-create clause. -/
theorem processEntry_idem (e e' : Json) (h : processEntry e = .ok e') :
    processEntry e' = .ok e' := by
  obtain ⟨r, req, rt, resource', x, xs, sys, val, hr, hq, hrt, hro, hrt', hident',
    hsys, hval, he'⟩ := processEntry_ok_inv e e' h
  have heobj : e.isObj = true := Json.get_some_obj e "resource" r hr
  have hgr : e'.get "resource" = some resource' := by
    rw [he', Json.get_set_ne _ "request" "resource" _ (by decide),
      Json.get_set_self e "resource" resource' heobj]
  have hgq : e'.get "request" = some (req.set "ifNoneExist"
      (.str (pyStr rt ++ "?identifier=" ++ pyStr sys ++ "|" ++ pyStr val))) := by
    rw [he', Json.get_set_self _ "request" _ (by rw [Json.isObj_set]; exact heobj)]
  have hro' : (req.set "ifNoneExist"
      (.str (pyStr rt ++ "?identifier=" ++ pyStr sys ++ "|" ++ pyStr val))).isObj = true := by
    rw [Json.isObj_set]; exact hro
  have happ := processEntry_existing e' resource'
    (req.set "ifNoneExist" (.str (pyStr rt ++ "?identifier=" ++ pyStr sys ++ "|" ++ pyStr val)))
    rt x sys val xs hgr hgq hrt' hident' hsys hval hro'
  rw [happ]
  congr 1
  rw [Json.set_get_self e' "resource" resource' hgr, Json.set_set_self]
  exact Json.set_get_self e' "request" _ hgq

theorem mapM_processEntry_idem (l : List Json) :
    ∀ l' : List Json, l.mapM processEntry = .ok l' → l'.mapM processEntry = .ok l' := by
  induction l with
  | nil =>
    intro l' h
    simp only [List.mapM_nil] at h
    cases h
    rfl
  | cons a t ih =>
    intro l' h
    rw [List.mapM_cons] at h
    rcases ha : processEntry a with err | a' <;> rw [ha] at h
    · exact absurd h (fun hh => Except.noConfusion hh)
    simp only [except_bind_ok] at h
    rcases ht : t.mapM processEntry with err | t' <;> rw [ht] at h
    · exact absurd h (fun hh => Except.noConfusion hh)
    simp only [except_bind_ok] at h
    cases h
    rw [List.mapM_cons, processEntry_idem a a' ha, except_bind_ok, ih t' ht,
      except_bind_ok]
    rfl

/-- C10: add_if_none_exist_clause is idempotent: on any bundle where it
succeeds, a second application returns the same bundle. -/
theorem claim_C10_add_clause_idempotent (p q : Json)
    (h : add_if_none_exist_clause p = .ok q) : add_if_none_exist_clause q = .ok q := by
  unfold add_if_none_exist_clause at h
  split at h
  next es heq =>
    rcases hm : es.toList.mapM processEntry with err | l' <;> rw [hm] at h
    · exact absurd h (fun hh => Except.noConfusion hh)
    simp only [except_map_ok, Except.ok.injEq] at h
    subst h
    have hobj : p.isObj = true := Json.get_some_obj p "entry" _ heq
    have hget' : (p.set "entry" (jarr l')).get "entry" = some (jarr l') :=
      Json.get_set_self p "entry" (jarr l') hobj
    have hm2 : l'.mapM processEntry = .ok l' := mapM_processEntry_idem es.toList l' hm
    unfold add_if_none_exist_clause
    rw [hget']
    dsimp only [jarr]
    rw [JList.toList_ofList, hm2, except_map_ok, Json.set_set_self]
  next _ _ => exact absurd h (fun hh => Except.noConfusion hh)

/-- C10 witness: a one-entry bundle, processed once and again. -/
theorem claim_C10_witness :
    add_if_none_exist_clause (jobj [("entry", jarr
      [jobj [("resource", jobj [("resourceType", .str "Patient"), ("id", .str "xyz")]),
        ("request", jobj [])]])]) =
      .ok (jobj [("entry", jarr
        [jobj [("resource", jobj [("resourceType", .str "Patient"), ("id", .str "xyz"),
            ("identifier", jarr [jobj [("system", .str syntheaUrl), ("value", .str "xyz")]])]),
          ("request", jobj [("ifNoneExist",
            .str "Patient?identifier=https://github.com/synthetichealth/synthea|xyz")])]])]) ∧
    add_if_none_exist_clause (jobj [("entry", jarr
      [jobj [("resource", jobj [("resourceType", .str "Patient"), ("id", .str "xyz"),
          ("identifier", jarr [jobj [("system", .str syntheaUrl), ("value", .str "xyz")]])]),
        ("request", jobj [("ifNoneExist",
          .str "Patient?identifier=https://github.com/synthetichealth/synthea|xyz")])]])]) =
      .ok (jobj [("entry", jarr
        [jobj [("resource", jobj [("resourceType", .str "Patient"), ("id", .str "xyz"),
            ("identifier", jarr [jobj [("system", .str syntheaUrl), ("value", .str "xyz")]])]),
          ("request", jobj [("ifNoneExist",
            .str "Patient?identifier=https://github.com/synthetichealth/synthea|xyz")])]])]) :=
  ⟨by decide,
    claim_C10_add_clause_idempotent
      (jobj [("entry", jarr
        [jobj [("resource", jobj [("resourceType", .str "Patient"), ("id", .str "xyz")]),
          ("request", jobj [])]])])
      _ (by decide)⟩

/-- C5: for an entry holding a request object, a resource with no (or an
empty) identifier list gets the synthesized synthea identifier from its
id and the matching request.ifNoneExist query; a resource with a
nonempty identifier list keeps it unmodified and its first element
builds the query; and on any success the resource ends up with a
nonempty identifier list. -/
theorem claim_C5_identifier_injection (e r req : Json) (rts : String)
    (hr : e.get "resource" = some r) (hq : e.get "request" = some req)
    (hrt : r.get "resourceType" = some (.str rts)) (hreq : req.isObj = true) :
    (∀ ids : Json, r.get "id" = some ids →
      (r.get "identifier" = none ∨ r.get "identifier" = some (jarr [])) →
      processEntry e = .ok ((e.set "resource"
        (r.set "identifier" (jarr [jobj [("system", .str syntheaUrl), ("value", ids)]]))).set
        "request" (req.set "ifNoneExist"
          (.str (rts ++ "?identifier=" ++ syntheaUrl ++ "|" ++ pyStr ids))))) ∧
    (∀ (x : Json) (xs : JList) (syss vals : String),
      r.get "identifier" = some (.arr (.cons x xs)) →
      x.get "system" = some (.str syss) → x.get "value" = some (.str vals) →
      processEntry e = .ok ((e.set "resource" r).set "request"
        (req.set "ifNoneExist"
          (.str (rts ++ "?identifier=" ++ syss ++ "|" ++ vals))))) ∧
    (∀ e', processEntry e = .ok e' →
      ∃ (r' x : Json) (xs : JList), e'.get "resource" = some r' ∧
        r'.get "identifier" = some (.arr (.cons x xs))) := by
  refine ⟨?_, ?_, ?_⟩
  · intro ids hids hempty
    have := processEntry_synth e r req (.str rts) ids hr hq hrt hempty hids hreq
    simpa [pyStr] using this
  · intro x xs syss vals hid hsys hval
    have := processEntry_existing e r req (.str rts) x (.str syss) (.str vals) xs
      hr hq hrt hid hsys hval hreq
    simpa [pyStr] using this
  · intro e' h
    obtain ⟨r2, req2, rt2, resource', x, xs, sys, val, hr2, hq2, hrt2, hro2, hrt2',
      hident', hsys2, hval2, he'⟩ := processEntry_ok_inv e e' h
    have heobj : e.isObj = true := Json.get_some_obj e "resource" r2 hr2
    refine ⟨resource', x, xs, ?_, hident'⟩
    rw [he', Json.get_set_ne _ "request" "resource" _ (by decide),
      Json.get_set_self e "resource" resource' heobj]

/-- C5 witness: both branches at concrete entries. -/
theorem claim_C5_witness :
    processEntry (jobj [("resource", jobj [("resourceType", .str "Patient"),
        ("id", .str "xyz")]), ("request", jobj [])]) =
      .ok (jobj [("resource", jobj [("resourceType", .str "Patient"), ("id", .str "xyz"),
          ("identifier", jarr [jobj [("system", .str syntheaUrl), ("value", .str "xyz")]])]),
        ("request", jobj [("ifNoneExist",
          .str "Patient?identifier=https://github.com/synthetichealth/synthea|xyz")])]) ∧
    processEntry (jobj [("resource", jobj [("resourceType", .str "Observation"),
        ("identifier", jarr [jobj [("system", .str "urn:oid:1.2"), ("value", .str "v7")]])]),
      ("request", jobj [])]) =
      .ok (jobj [("resource", jobj [("resourceType", .str "Observation"),
          ("identifier", jarr [jobj [("system", .str "urn:oid:1.2"), ("value", .str "v7")]])]),
        ("request", jobj [("ifNoneExist", .str "Observation?identifier=urn:oid:1.2|v7")])]) := by
  constructor
  · have h := (claim_C5_identifier_injection
      (jobj [("resource", jobj [("resourceType", .str "Patient"), ("id", .str "xyz")]),
        ("request", jobj [])])
      (jobj [("resourceType", .str "Patient"), ("id", .str "xyz")]) (jobj []) "Patient"
      (by decide) (by decide) (by decide) (by decide)).1
      (.str "xyz") (by decide) (Or.inl (by decide))
    exact h.trans (by decide)
  · have h := (claim_C5_identifier_injection
      (jobj [("resource", jobj [("resourceType", .str "Observation"),
        ("identifier", jarr [jobj [("system", .str "urn:oid:1.2"), ("value", .str "v7")]])]),
        ("request", jobj [])])
      (jobj [("resourceType", .str "Observation"),
        ("identifier", jarr [jobj [("system", .str "urn:oid:1.2"), ("value", .str "v7")]])])
      (jobj []) "Observation"
      (by decide) (by decide) (by decide) (by decide)).2.1
      (jobj [("system", .str "urn:oid:1.2"), ("value", .str "v7")]) JList.nil "urn:oid:1.2" "v7"
      (by decide) (by decide) (by decide)
    exact h.trans (by decide)

/-! ### The upload phases -/

/-- C7: in the patient phase an upload failure is caught per file,
reported as a "Failed: name" line, and the loop continues: with three
files whose second upload fails, all three are attempted, the run does
not abort, and exactly the second is reported. -/
theorem claim_C7_patient_failure_isolation
    (net : Json → Bool) (n1 n2 n3 : String) (d1 d2 d3 p1 p2 p3 : Json)
    (h1 : preprocess_payload d1 = .ok p1) (hn1 : net p1 = true)
    (h2 : preprocess_payload d2 = .ok p2) (hn2 : net p2 = false)
    (h3 : preprocess_payload d3 = .ok p3) (hn3 : net p3 = true) :
    runPatientPhase net [(n1, d1), (n2, d2), (n3, d3)] =
      .ok ([n1, n2, n3], ["Failed: " ++ n2]) := by
  simp [runPatientPhase, upload_payload, h1, h2, h3, hn1, hn2, hn3, except_map_ok]

/-- C7 witness: two trivial bundles; the network accepts only the first
payload. -/
theorem claim_C7_witness :
    runPatientPhase (fun p => p == jobj [("entry", jarr [])])
      [("f1", jobj [("entry", jarr [])]),
       ("f2", jobj [("entry", jarr []), ("x", Json.null)]),
       ("f3", jobj [("entry", jarr [])])] =
      .ok (["f1", "f2", "f3"], ["Failed: f2"]) :=
  claim_C7_patient_failure_isolation _ "f1" "f2" "f3" _ _ _
    (jobj [("entry", jarr [])]) (jobj [("entry", jarr []), ("x", Json.null)])
    (jobj [("entry", jarr [])])
    (by decide) (by decide) (by decide) (by decide) (by decide) (by decide)

/-- C8: a preprocessing failure (malformed input: a document lacking an
expected field) is caught nowhere: it aborts the patient phase — whose
handler catches only request failures — as well as the strict phases and
a whole run, from whatever position the bad file sits at. -/
theorem runPatientPhase_abort (net : Json → Bool) (n : String) (d : Json) (err : PErr)
    (l1 l2 : List (String × Json))
    (hbad : upload_payload d net = .error (.pre err))
    (hok : ∀ f ∈ l1, upload_payload f.2 net = .ok ()) :
    runPatientPhase net (l1 ++ (n, d) :: l2) = .error (.pre err) := by
  induction l1 with
  | nil => simp [runPatientPhase, hbad]
  | cons f l1 ih =>
    have hf := hok f (List.mem_cons_self _ _)
    cases f with
    | mk nf df =>
      simp only [List.cons_append, runPatientPhase]
      rw [show upload_payload df net = .ok () from hf]
      simp only [List.append_eq] at *
      rw [ih (fun g hg => hok g (List.mem_cons_of_mem _ hg)), except_map_error]

theorem runStrictPhase_abort (net : Json → Bool) (n : String) (d : Json) (er : RunErr)
    (l1 l2 : List (String × Json))
    (hbad : upload_payload d net = .error er)
    (hok : ∀ f ∈ l1, upload_payload f.2 net = .ok ()) :
    runStrictPhase net (l1 ++ (n, d) :: l2) = .error er := by
  induction l1 with
  | nil => simp [runStrictPhase, hbad]
  | cons f l1 ih =>
    have hf := hok f (List.mem_cons_self _ _)
    cases f with
    | mk nf df =>
      simp only [List.cons_append, runStrictPhase]
      rw [show upload_payload df net = .ok () from hf]
      simp only [List.append_eq] at *
      rw [ih (fun g hg => hok g (List.mem_cons_of_mem _ hg)), except_map_error]

theorem claim_C8_malformed_aborts
    (net : Json → Bool) (n : String) (d : Json) (err : PErr) (l1 l2 : List (String × Json))
    (hpre : preprocess_payload d = .error err)
    (hok : ∀ f ∈ l1, upload_payload f.2 net = .ok ()) :
    runPatientPhase net (l1 ++ (n, d) :: l2) = .error (.pre err) ∧
    runStrictPhase net (l1 ++ (n, d) :: l2) = .error (.pre err) ∧
    runMain net [] [] (l1 ++ (n, d) :: l2) = .error (.pre err) := by
  have hbad : upload_payload d net = .error (.pre err) := by
    simp [upload_payload, hpre]
  have hpat := runPatientPhase_abort net n d err l1 l2 hbad hok
  refine ⟨hpat, runStrictPhase_abort net n d (.pre err) l1 l2 hbad hok, ?_⟩
  simp [runMain, runStrictPhase, hpat, except_bind_ok, except_bind_error]

/-- C8 witness: a document with no entry field aborts the patient phase
after one good file. -/
theorem claim_C8_witness :
    runPatientPhase (fun _ => true)
        ([("g", jobj [("entry", jarr [])])] ++ ("bad", jobj []) :: []) =
      .error (.pre .malformedInput) ∧
    runStrictPhase (fun _ => true)
        ([("g", jobj [("entry", jarr [])])] ++ ("bad", jobj []) :: []) =
      .error (.pre .malformedInput) ∧
    runMain (fun _ => true) [] []
        ([("g", jobj [("entry", jarr [])])] ++ ("bad", jobj []) :: []) =
      .error (.pre .malformedInput) :=
  claim_C8_malformed_aborts (fun _ => true) "bad" (jobj []) .malformedInput
    [("g", jobj [("entry", jarr [])])] [] (by decide)
    (by intro f hf; simp at hf; subst hf; decide)

/-! ### Frame effects of the transforms (store-passing view) -/

theorem st_mutator_char (F : Json → Except PErr Json) (s : List Json) (i : Nat)
    (s' : List Json)
    (h : (match s[i]? with
          | some d => (F d).map (fun d' => s.set i d')
          | none => .error .malformedInput) = .ok s') :
    (∀ k, k ≠ i → s'[k]? = s[k]?) ∧
    ∃ d d', s[i]? = some d ∧ F d = .ok d' ∧ s'[i]? = some d' := by
  rcases hi : s[i]? with _ | d <;> rw [hi] at h <;> dsimp only at h
  · exact absurd h (fun hh => Except.noConfusion hh)
  rcases hf : F d with er | d' <;> rw [hf] at h
  · exact absurd h (fun hh => Except.noConfusion hh)
  rw [except_map_ok] at h
  cases h
  have hlt : i < s.length := (List.getElem?_eq_some.mp hi).1
  exact ⟨fun k hk => List.getElem?_set_ne (by omega), d, d', rfl, hf,
    by simp [List.getElem?_set_self, hlt]⟩

/-- C9: standardize_references does not write the document it is handed —
json.loads builds a fresh document, returned at a fresh index, and every
existing store entry (the argument included) is unchanged — while the
other three transforms write only the document at their argument index
and return no value; consequently preprocess_payload's returned index
holds the full pipeline result, which it can only do because the
orchestrator rebinds its payload variable to standardize_references'
return value. -/
theorem claim_C9_frame_effects (s : List Json) (i : Nat) :
    (∀ s' j, standardize_references_st s i = .ok (s', j) →
      (∀ k, k < s.length → s'[k]? = s[k]?) ∧
      j = s.length ∧
      ∃ d v, s[i]? = some d ∧ standardize_references d = .ok v ∧ s'[j]? = some v) ∧
    (∀ s', purge_duplicates_st s i = .ok s' →
      (∀ k, k ≠ i → s'[k]? = s[k]?) ∧
      ∃ d d', s[i]? = some d ∧ purge_duplicates d = .ok d' ∧ s'[i]? = some d') ∧
    (∀ s', remove_provenance_st s i = .ok s' →
      (∀ k, k ≠ i → s'[k]? = s[k]?) ∧
      ∃ d d', s[i]? = some d ∧ remove_provenance d = .ok d' ∧ s'[i]? = some d') ∧
    (∀ s', add_if_none_exist_clause_st s i = .ok s' →
      (∀ k, k ≠ i → s'[k]? = s[k]?) ∧
      ∃ d d', s[i]? = some d ∧ add_if_none_exist_clause d = .ok d' ∧ s'[i]? = some d') ∧
    (∀ s' j, preprocess_payload_st s i = .ok (s', j) →
      ∃ d v, s[i]? = some d ∧ preprocess_payload d = .ok v ∧ s'[j]? = some v) := by
  have hstd : ∀ (t : List Json) (s' : List Json) (j : Nat),
      standardize_references_st t i = .ok (s', j) →
      (∀ k, k < t.length → s'[k]? = t[k]?) ∧ j = t.length ∧
      ∃ d v, t[i]? = some d ∧ standardize_references d = .ok v ∧ s'[j]? = some v := by
    intro t s' j h
    unfold standardize_references_st at h
    rcases hi : t[i]? with _ | d <;> rw [hi] at h <;> dsimp only at h
    · exact absurd h (fun hh => Except.noConfusion hh)
    rcases hf : standardize_references d with er | v <;> rw [hf] at h
    · exact absurd h (fun hh => Except.noConfusion hh)
    simp only [except_map_ok, Except.ok.injEq, Prod.mk.injEq] at h
    obtain ⟨hs', hj⟩ := h
    subst hs'
    subst hj
    refine ⟨fun k hk => by rw [List.getElem?_append, if_pos hk], rfl, d, v, rfl, hf, ?_⟩
    simp
  refine ⟨hstd s, fun s' h => st_mutator_char purge_duplicates s i s' h,
    fun s' h => st_mutator_char remove_provenance s i s' h,
    fun s' h => st_mutator_char add_if_none_exist_clause s i s' h, ?_⟩
  intro s' j h
  unfold preprocess_payload_st at h
  rcases h1 : purge_duplicates_st s i with er | s1 <;> rw [h1] at h
  · exact absurd h (fun hh => Except.noConfusion hh)
  rw [except_bind_ok] at h
  rcases h2 : remove_provenance_st s1 i with er | s2 <;> rw [h2] at h
  · exact absurd h (fun hh => Except.noConfusion hh)
  rw [except_bind_ok] at h
  rcases h3 : standardize_references_st s2 i with er | p <;> rw [h3] at h
  · exact absurd h (fun hh => Except.noConfusion hh)
  obtain ⟨s3, j3⟩ := p
  rw [except_bind_ok] at h
  dsimp only at h
  rcases h4 : add_if_none_exist_clause_st s3 j3 with er | s4 <;> rw [h4] at h
  · exact absurd h (fun hh => Except.noConfusion hh)
  rw [except_bind_ok] at h
  simp only [Except.ok.injEq, Prod.mk.injEq] at h
  obtain ⟨hseq, hjeq⟩ := h
  obtain ⟨hf1, d, d1, hi0, hp1, hs1i⟩ := st_mutator_char purge_duplicates s i s1 h1
  obtain ⟨hf2, d1', d2, hi1, hp2, hs2i⟩ := st_mutator_char remove_provenance s1 i s2 h2
  rw [hs1i] at hi1
  cases hi1
  obtain ⟨hf3, hj3, d2', v3, hi2, hp3, hs3j⟩ := hstd s2 s3 j3 h3
  rw [hs2i] at hi2
  cases hi2
  obtain ⟨hf4, v3', v4, hj3', hp4, hs4j⟩ :=
    st_mutator_char add_if_none_exist_clause s3 j3 s4 h4
  rw [hs3j] at hj3'
  cases hj3'
  refine ⟨d, v4, hi0, ?_, ?_⟩
  · rw [preprocess_payload, hp1, except_bind_ok, hp2, except_bind_ok, hp3,
      except_bind_ok, hp4, except_bind_ok]
  · rw [← hseq, ← hjeq]
    exact hs4j

/-- C9 witness: a two-document store, transforming the document at
index 0: the pipeline result lands at the fresh index 2. -/
theorem claim_C9_witness :
    ∃ d v, (([jobj [("entry", jarr [])], Json.null]) : List Json)[0]? = some d ∧
      preprocess_payload d = .ok v ∧
      (([jobj [("entry", jarr [])], Json.null, jobj [("entry", jarr [])]]) :
        List Json)[2]? = some v :=
  (claim_C9_frame_effects [jobj [("entry", jarr [])], Json.null] 0).2.2.2.2
    [jobj [("entry", jarr [])], Json.null, jobj [("entry", jarr [])]] 2 (by decide)

/-! ### The full pipeline -/

/-- C6: the pipeline applies the four transforms in the fixed order
deduplicate, strip provenance, normalize references, inject idempotency
keys; on the ordering-scenario bundle (one duplicated fullUrl, one
Provenance entry, one relative reference between survivors) the result
keeps exactly one entry for the duplicated URL, no Provenance entry, the
reference in urn:uuid form, and gives every remaining resource a
nonempty identifier and a populated request.ifNoneExist. -/
theorem claim_C6_pipeline_order_and_scenario :
    (∀ p q : Json, preprocess_payload p = .ok q ↔
      ∃ a b c, purge_duplicates p = .ok a ∧ remove_provenance a = .ok b ∧
        standardize_references b = .ok c ∧ add_if_none_exist_clause c = .ok q) ∧
    preprocess_payload scenarioBundle =
      .ok (jobj [("resourceType", .str "Bundle"),
        ("entry", jarr scenarioResultEntries)]) ∧
    (scenarioResultEntries.filter (fun e =>
      e.get "fullUrl" = some (.str "urn:uuid:550e8400-e29b-41d4-a716-446655440000"))).length
      = 1 ∧
    (∀ e ∈ scenarioResultEntries, provType e ≠ some (.str "Provenance")) ∧
    (∃ e ∈ scenarioResultEntries,
      (e.get "resource").bind (fun r => (r.get "subject").bind (fun s => s.get "reference"))
        = some (.str "urn:uuid:550e8400-e29b-41d4-a716-446655440000")) ∧
    (∀ e ∈ scenarioResultEntries,
      hasNonemptyIdentifier e = true ∧ hasIfNoneExist e = true) := by
  refine ⟨?_, by decide, by decide, by decide, by decide, by decide⟩
  intro p q
  constructor
  · intro h
    unfold preprocess_payload at h
    rcases h1 : purge_duplicates p with er | a <;> rw [h1] at h
    · exact absurd h (fun hh => Except.noConfusion hh)
    rw [except_bind_ok] at h
    rcases h2 : remove_provenance a with er | b <;> rw [h2] at h
    · exact absurd h (fun hh => Except.noConfusion hh)
    rw [except_bind_ok] at h
    rcases h3 : standardize_references b with er | c <;> rw [h3] at h
    · exact absurd h (fun hh => Except.noConfusion hh)
    rw [except_bind_ok] at h
    rcases h4 : add_if_none_exist_clause c with er | q' <;> rw [h4] at h
    · exact absurd h (fun hh => Except.noConfusion hh)
    rw [except_bind_ok] at h
    injection h with hq
    subst hq
    exact ⟨a, b, c, rfl, h2, h3, h4⟩
  · rintro ⟨a, b, c, h1, h2, h3, h4⟩
    unfold preprocess_payload
    rw [h1, except_bind_ok, h2, except_bind_ok, h3, except_bind_ok, h4, except_bind_ok]

/-! ### C4: text-layer lemmas -/

theorem hexLower_ne_slash {c : Char} (h : hexLower c = true) : c ≠ '/' :=
  fun he => absurd (he ▸ h) (by decide)

theorem hexLower_ne_quote {c : Char} (h : hexLower c = true) : c ≠ '"' :=
  fun he => absurd (he ▸ h) (by decide)

theorem wordChar_ne_slash {c : Char} (h : wordChar c = true) : c ≠ '/' :=
  fun he => absurd (he ▸ h) (by decide)

theorem plainL_mem {cs : List Char} {c : Char} (h : plainL cs = true) (hm : c ∈ cs) :
    plainChar c = true := by
  rw [plainL, List.all_eq_true] at h
  exact h c hm

theorem plain_no_quote {cs : List Char} (h : plainL cs = true) : '"' ∉ cs :=
  fun hm => absurd (plainL_mem h hm) (by decide)

theorem plainChar_ne_quote {c : Char} (h : plainChar c = true) : c ≠ '"' :=
  fun he => absurd (he ▸ h) (by decide)

theorem dropLit_decomp : ∀ (lit cs r : List Char), dropLit lit cs = some r → cs = lit ++ r
  | [], cs, r, h => by
    simp only [dropLit, Option.some.injEq] at h
    simp [h]
  | _ :: _, [], _, h => by simp [dropLit] at h
  | l :: ls, c :: cs, r, h => by
    by_cases hc : c = l
    · subst hc
      simp only [dropLit, if_pos rfl] at h
      have := dropLit_decomp ls cs r h
      simp [this]
    · simp [dropLit, hc] at h

theorem dropLit_self : ∀ (lit r : List Char), dropLit lit (lit ++ r) = some r
  | [], _ => rfl
  | l :: ls, r => by
    simp only [List.cons_append, dropLit, if_pos rfl]
    exact dropLit_self ls r

theorem append_sep_split :
    ∀ (u a : List Char) (d : Char) (t r : List Char),
      a ++ d :: t = u ++ r → d ∉ u → ∃ a', a = u ++ a' ∧ r = a' ++ d :: t
  | [], a, d, t, r, h, _ => ⟨a, by simp, by simpa using h.symm⟩
  | c :: u', a, d, t, r, h, hd => by
    cases a with
    | nil =>
      simp only [List.nil_append, List.cons_append, List.cons.injEq] at h
      exact absurd (h.1 ▸ List.mem_cons_self c u') hd
    | cons a0 a1 =>
      simp only [List.cons_append, List.cons.injEq] at h
      obtain ⟨a', ha, hr⟩ :=
        append_sep_split u' a1 d t r h.2 (fun hm => hd (List.mem_cons_of_mem c hm))
      exact ⟨a', by simp [h.1, ha], hr⟩

theorem append_sep_inj {a b : List Char} {d : Char} {t t' : List Char}
    (ha : d ∉ a) (hb : d ∉ b) (h : a ++ d :: t = b ++ d :: t') : a = b ∧ t = t' := by
  obtain ⟨a', h1, h2⟩ := append_sep_split b a d t (d :: t') h hb
  cases a' with
  | nil =>
    simp only [List.nil_append] at h2
    injection h2 with _ ht
    exact ⟨by simp [h1], ht.symm⟩
  | cons x a'' =>
    simp only [List.cons_append, List.cons.injEq] at h2
    exact absurd (h1 ▸ List.mem_append_right b (h2.1 ▸ List.mem_cons_self x a'')) ha

theorem takeWhile_app (p : Char → Bool) :
    ∀ (w : List Char) (b : Char) (t : List Char),
      (∀ c ∈ w, p c = true) → p b = false → (w ++ b :: t).takeWhile p = w
  | [], b, t, _, hb => by simp [List.takeWhile_cons, hb]
  | c :: w', b, t, hw, hb => by
    simp only [List.cons_append, List.takeWhile_cons, hw c (List.mem_cons_self c w'),
      if_true]
    rw [takeWhile_app p w' b t (fun x hx => hw x (List.mem_cons_of_mem c hx)) hb]

theorem dropWhile_app (p : Char → Bool) :
    ∀ (w : List Char) (b : Char) (t : List Char),
      (∀ c ∈ w, p c = true) → p b = false → (w ++ b :: t).dropWhile p = b :: t
  | [], b, t, _, hb => by simp [List.dropWhile_cons, hb]
  | c :: w', b, t, hw, hb => by
    simp only [List.cons_append, List.dropWhile_cons, hw c (List.mem_cons_self c w'),
      if_true]
    exact dropWhile_app p w' b t (fun x hx => hw x (List.mem_cons_of_mem c hx)) hb

theorem escapeChar_plain {c : Char} (h : plainChar c = true) : escapeChar c = [c] := by
  have hne : ∀ d : Char, plainChar d = false → c ≠ d :=
    fun d hd he => by rw [he, hd] at h; exact Bool.noConfusion h
  have hb : 32 ≤ c.toNat ∧ c.toNat ≤ 126 := by
    rw [plainChar] at h
    simp only [Bool.and_eq_true, decide_eq_true_eq] at h
    exact ⟨h.1.1.1, h.1.1.2⟩
  rw [escapeChar, if_neg (hne '"' (by decide)), if_neg (hne '\\' (by decide)),
    if_neg (hne '\n' (by decide)), if_neg (hne '\t' (by decide)),
    if_neg (hne '\r' (by decide)), if_neg (hne (Char.ofNat 8) (by decide)),
    if_neg (hne (Char.ofNat 12) (by decide)), if_neg]
  simp only [Bool.or_eq_true, decide_eq_true_eq, not_or, not_lt]
  omega

theorem escapeStr_plain : ∀ (cs : List Char), plainL cs = true → escapeStr cs = cs
  | [], _ => rfl
  | c :: cs, h => by
    have hc : plainChar c = true := plainL_mem h (List.mem_cons_self c cs)
    have hcs : plainL cs = true := by
      rw [plainL, List.all_eq_true] at h ⊢
      exact fun x hx => h x (List.mem_cons_of_mem c hx)
    rw [escapeStr, escapeChar_plain hc, escapeStr_plain cs hcs, List.singleton_append]

theorem opt_bind_some {α β : Type} (a : α) (f : α → Option β) :
    (some a >>= f) = f a := rfl

theorem opt_bind_none {α β : Type} (f : α → Option β) :
    ((none : Option α) >>= f) = none := rfl

theorem dropLit_dash (z : List Char) : dropLit ['-'] ('-' :: z) = some z :=
  dropLit_self ['-'] z

theorem hexTake_decomp :
    ∀ (n : Nat) (cs p q : List Char), hexTake n cs = some (p, q) →
      cs = p ++ q ∧ (∀ t, hexTake n (p ++ t) = some (p, t)) ∧
        ∀ c ∈ p, hexLower c = true
  | 0, cs, p, q, h => by
    simp only [hexTake, Option.some.injEq, Prod.mk.injEq] at h
    refine ⟨by simp [h.1, h.2], fun t => by simp [h.1, hexTake], fun c hc => ?_⟩
    rw [← h.1] at hc
    exact absurd hc (List.not_mem_nil c)
  | n + 1, [], p, q, h => by simp [hexTake] at h
  | n + 1, c :: cs, p, q, h => by
    by_cases hc : hexLower c = true
    · rw [hexTake, if_pos hc] at h
      rcases e : hexTake n cs with _ | ⟨p', q'⟩ <;> rw [e] at h
      · exact Option.noConfusion h
      simp only [Option.map_some', Option.some.injEq, Prod.mk.injEq] at h
      obtain ⟨hd, hr, hch⟩ := hexTake_decomp n cs p' q' e
      refine ⟨by simp [← h.1, hd, h.2], fun t => ?_, fun x hx => ?_⟩
      · rw [← h.1, List.cons_append, hexTake, if_pos hc, hr t]
        simp [h.2]
      · rw [← h.1] at hx
        rcases List.mem_cons.mp hx with rfl | hx
        · exact hc
        · exact hch x hx
    · rw [hexTake, if_neg hc] at h
      exact Option.noConfusion h

theorem matchUuid_decomp {cs u r : List Char} (h : matchUuid cs = some (u, r)) :
    cs = u ++ r ∧ (∀ t, matchUuid (u ++ t) = some (u, t)) ∧ u ≠ [] ∧
      ∀ c ∈ u, hexLower c = true ∨ c = '-' := by
  rw [matchUuid] at h
  rcases e1 : hexTake 8 cs with _ | ⟨h1v, cs1⟩ <;> rw [e1] at h
  · exact Option.noConfusion h
  simp only [opt_bind_some] at h
  rcases e2 : dropLit ['-'] cs1 with _ | cs2 <;> rw [e2] at h
  · exact Option.noConfusion h
  simp only [opt_bind_some] at h
  rcases e3 : hexTake 4 cs2 with _ | ⟨h2v, cs3⟩ <;> rw [e3] at h
  · exact Option.noConfusion h
  simp only [opt_bind_some] at h
  rcases e4 : dropLit ['-'] cs3 with _ | cs4 <;> rw [e4] at h
  · exact Option.noConfusion h
  simp only [opt_bind_some] at h
  rcases e5 : hexTake 4 cs4 with _ | ⟨h3v, cs5⟩ <;> rw [e5] at h
  · exact Option.noConfusion h
  simp only [opt_bind_some] at h
  rcases e6 : dropLit ['-'] cs5 with _ | cs6 <;> rw [e6] at h
  · exact Option.noConfusion h
  simp only [opt_bind_some] at h
  rcases e7 : hexTake 4 cs6 with _ | ⟨h4v, cs7⟩ <;> rw [e7] at h
  · exact Option.noConfusion h
  simp only [opt_bind_some] at h
  rcases e8 : dropLit ['-'] cs7 with _ | cs8 <;> rw [e8] at h
  · exact Option.noConfusion h
  simp only [opt_bind_some] at h
  rcases e9 : hexTake 12 cs8 with _ | ⟨h5v, cs9⟩ <;> rw [e9] at h
  · exact Option.noConfusion h
  simp only [opt_bind_some, Option.some.injEq, Prod.mk.injEq] at h
  obtain ⟨hu, hr⟩ := h
  obtain ⟨d1, r1, c1⟩ := hexTake_decomp 8 cs h1v cs1 e1
  have dd1 : cs1 = '-' :: cs2 := dropLit_decomp ['-'] cs1 cs2 e2
  obtain ⟨d2, r2, c2⟩ := hexTake_decomp 4 cs2 h2v cs3 e3
  have dd2 : cs3 = '-' :: cs4 := dropLit_decomp ['-'] cs3 cs4 e4
  obtain ⟨d3, r3, c3⟩ := hexTake_decomp 4 cs4 h3v cs5 e5
  have dd3 : cs5 = '-' :: cs6 := dropLit_decomp ['-'] cs5 cs6 e6
  obtain ⟨d4, r4, c4⟩ := hexTake_decomp 4 cs6 h4v cs7 e7
  have dd4 : cs7 = '-' :: cs8 := dropLit_decomp ['-'] cs7 cs8 e8
  obtain ⟨d5, r5, c5⟩ := hexTake_decomp 12 cs8 h5v cs9 e9
  refine ⟨?_, fun t => ?_, ?_, fun c hc => ?_⟩
  · rw [d1, dd1, d2, dd2, d3, dd3, d4, dd4, d5, ← hu, ← hr]
    simp [List.append_assoc]
  · rw [← hu]
    simp only [List.append_assoc, List.cons_append]
    rw [matchUuid, r1]
    simp only [opt_bind_some, dropLit_dash, r2, r3, r4, r5]
    simp [List.append_assoc]
  · rw [← hu]
    simp [List.append_eq_nil]
  · rw [← hu] at hc
    simp only [List.append_assoc, List.cons_append, List.mem_append,
      List.mem_cons] at hc
    rcases hc with hc | hc
    · exact Or.inl (c1 c hc)
    rcases hc with rfl | hc
    · exact Or.inr rfl
    rcases hc with hc | hc
    · exact Or.inl (c2 c hc)
    rcases hc with rfl | hc
    · exact Or.inr rfl
    rcases hc with hc | hc
    · exact Or.inl (c3 c hc)
    rcases hc with rfl | hc
    · exact Or.inr rfl
    rcases hc with hc | hc
    · exact Or.inl (c4 c hc)
    rcases hc with rfl | hc
    · exact Or.inr rfl
    · exact Or.inl (c5 c hc)

theorem matchedText_ne_nil (m : RefMatch) : matchedText m ≠ [] := by
  simp [matchedText, refKeyLit]

theorem tryMatch_not_quote {c : Char} (cs : List Char) (hc : c ≠ '"') :
    tryMatch (c :: cs) = none := by
  have hd : dropLit refKeyLit (c :: cs) = none := by
    simp [refKeyLit, dropLit, hc]
  rw [tryMatch, hd]
  rfl

theorem tryMatch_decomp {cs : List Char} {m : RefMatch} (h : tryMatch cs = some m) :
    cs = matchedText m ++ m.rest := by
  rw [tryMatch] at h
  rcases e1 : dropLit refKeyLit cs with _ | cs1 <;> rw [e1] at h
  · exact Option.noConfusion h
  simp only [opt_bind_some] at h
  rcases e2 : dropLit [':'] (cs1.dropWhile pySpace) with _ | cs2 <;> rw [e2] at h
  · exact Option.noConfusion h
  simp only [opt_bind_some] at h
  rcases e3 : dropLit ['"'] (cs2.dropWhile pySpace) with _ | cs3 <;> rw [e3] at h
  · exact Option.noConfusion h
  simp only [opt_bind_some] at h
  by_cases hw : cs3.takeWhile wordChar = []
  · rw [if_pos hw] at h
    exact Option.noConfusion h
  rw [if_neg hw] at h
  rcases e4 : dropLit ['/'] (cs3.dropWhile wordChar) with _ | cs4 <;> rw [e4] at h
  · exact Option.noConfusion h
  simp only [opt_bind_some] at h
  rcases e5 : matchUuid cs4 with _ | ⟨u, cs5⟩ <;> rw [e5] at h
  · exact Option.noConfusion h
  simp only [opt_bind_some] at h
  rcases e6 : dropLit ['"'] cs5 with _ | cs6 <;> rw [e6] at h
  · exact Option.noConfusion h
  simp only [opt_bind_some, Option.some.injEq] at h
  have q1 := dropLit_decomp _ _ _ e1
  have q2 := dropLit_decomp _ _ _ e2
  have q3 := dropLit_decomp _ _ _ e3
  have q4 := dropLit_decomp _ _ _ e4
  have q5 := (matchUuid_decomp e5).1
  have q6 := dropLit_decomp _ _ _ e6
  have s1 : cs1.takeWhile pySpace ++ cs1.dropWhile pySpace = cs1 :=
    List.takeWhile_append_dropWhile pySpace cs1
  have s2 : cs2.takeWhile pySpace ++ cs2.dropWhile pySpace = cs2 :=
    List.takeWhile_append_dropWhile pySpace cs2
  have s3 : cs3.takeWhile wordChar ++ cs3.dropWhile wordChar = cs3 :=
    List.takeWhile_append_dropWhile wordChar cs3
  rw [q1, ← s1, q2, ← s2, q3, ← s3, q4, q5, q6, ← h]
  simp [matchedText, List.append_assoc]

theorem rest_len_lt {c : Char} {cs : List Char} {m : RefMatch}
    (h : tryMatch (c :: cs) = some m) : m.rest.length ≤ cs.length := by
  have hd := tryMatch_decomp h
  have hlen : (c :: cs).length = (matchedText m).length + m.rest.length := by
    rw [hd, List.length_append]
  have hpos : 0 < (matchedText m).length :=
    List.length_pos.mpr (matchedText_ne_nil m)
  simp only [List.length_cons] at hlen
  omega

theorem substAux_congr :
    ∀ (f g : Nat) (cs : List Char), cs.length ≤ f → cs.length ≤ g →
      substAux f cs = substAux g cs
  | 0, g, cs, hf, _ => by
    have : cs = [] := List.eq_nil_of_length_eq_zero (Nat.le_zero.mp hf)
    subst this
    cases g <;> rfl
  | _ + 1, g, [], _, _ => by cases g <;> rfl
  | _ + 1, 0, c :: cs, _, hg => by simp at hg
  | f + 1, g + 1, c :: cs, hf, hg => by
    simp only [substAux]
    rcases e : tryMatch (c :: cs) with _ | m <;> dsimp only
    · have hf' : cs.length ≤ f := by
        simp only [List.length_cons] at hf
        omega
      have hg' : cs.length ≤ g := by
        simp only [List.length_cons] at hg
        omega
      rw [substAux_congr f g cs hf' hg']
    · have hr := rest_len_lt e
      have hf' : m.rest.length ≤ f := by
        simp only [List.length_cons] at hf
        omega
      have hg' : m.rest.length ≤ g := by
        simp only [List.length_cons] at hg
        omega
      rw [substAux_congr f g m.rest hf' hg']

theorem subst_cons_nomatch {c : Char} {cs : List Char}
    (h : tryMatch (c :: cs) = none) : subst (c :: cs) = c :: subst cs := by
  rw [subst, List.length_cons, substAux, h]
  rfl

theorem subst_cons_match {c : Char} {cs : List Char} {m : RefMatch}
    (h : tryMatch (c :: cs) = some m) :
    subst (c :: cs) = urnreplc m ++ subst m.rest := by
  rw [subst, List.length_cons, substAux, h, subst]
  dsimp only
  rw [substAux_congr cs.length m.rest.length m.rest (rest_len_lt h) (Nat.le_refl _)]

theorem subst_app_no_quote :
    ∀ (s t : List Char), (∀ x ∈ s, x ≠ '"') → subst (s ++ t) = s ++ subst t
  | [], t, _ => by simp
  | c :: s', t, hs => by
    rw [List.cons_append,
      subst_cons_nomatch (tryMatch_not_quote (s' ++ t) (hs c (List.mem_cons_self c s'))),
      subst_app_no_quote s' t (fun x hx => hs x (List.mem_cons_of_mem c hx))]
    simp

theorem pySpace_cases {c : Char} (h : pySpace c = true) :
    c = ' ' ∨ c = '\t' ∨ c = '\n' ∨ c = '\r' ∨ c = Char.ofNat 11 ∨ c = Char.ofNat 12 := by
  simp only [pySpace, Bool.or_eq_true, decide_eq_true_eq] at h
  tauto

theorem jsonWs_cases {c : Char} (h : jsonWs c = true) :
    c = ' ' ∨ c = '\t' ∨ c = '\n' ∨ c = '\r' := by
  simp only [jsonWs, Bool.or_eq_true, decide_eq_true_eq] at h
  tauto

theorem numHead_not_pySpace {c : Char} (h : numHead c = true) : pySpace c = false := by
  cases hb : pySpace c
  · rfl
  · rcases pySpace_cases hb with rfl | rfl | rfl | rfl | rfl | rfl <;>
      exact absurd h (by decide)

theorem numHead_not_jsonWs {c : Char} (h : numHead c = true) : jsonWs c = false := by
  cases hb : jsonWs c
  · rfl
  · rcases jsonWs_cases hb with rfl | rfl | rfl | rfl <;> exact absurd h (by decide)

theorem numHead_ne {c d : Char} (h : numHead c = true) (hd : numHead d = false) :
    c ≠ d :=
  fun he => by rw [he, hd] at h; exact Bool.noConfusion h

/-- Head character of the dumped text of a non-string value: never a
quote, never whitespace. -/
theorem dumps_head_nonstr (v : Json) (hv : wfJ v = true) (hns : ∀ s, v ≠ .str s) :
    ∃ c cs, dumpsJ v = c :: cs ∧ c ≠ '"' ∧ pySpace c = false ∧ jsonWs c = false := by
  cases v with
  | null => exact ⟨'n', toL "ull", by decide, by decide, by decide, by decide⟩
  | bool b =>
    cases b
    · exact ⟨'f', toL "alse", by decide, by decide, by decide, by decide⟩
    · exact ⟨'t', toL "rue", by decide, by decide, by decide, by decide⟩
  | num r =>
    cases r with
    | nil => exact absurd (show wfJ (Json.num []) = true from hv) (by decide)
    | cons c r' =>
      have hv' : (!(c :: r').isEmpty && (c :: r').all numChar && numHead c) = true := hv
      simp only [Bool.and_eq_true] at hv'
      exact ⟨c, r', rfl, numHead_ne hv'.2 (by decide), numHead_not_pySpace hv'.2,
        numHead_not_jsonWs hv'.2⟩
  | str s => exact absurd rfl (hns s)
  | arr xs => exact ⟨'[', dumpsElems xs ++ [']'], rfl, by decide, by decide, by decide⟩
  | obj kvs =>
    exact ⟨lbrace, dumpsMembers kvs ++ [rbrace], rfl, by decide, by decide, by decide⟩

theorem dropLit_one (c : Char) (z : List Char) : dropLit [c] (c :: z) = some z :=
  dropLit_self [c] z

/-- REFERENCE_REGEX succeeds at a member head "reference": "w/uuid". -/
theorem tryMatch_success {w u : List Char} (t : List Char)
    (hw : w ≠ []) (hwc : ∀ c ∈ w, wordChar c = true)
    (hu : ∀ t2, matchUuid (u ++ t2) = some (u, t2)) :
    tryMatch
        ('"' :: (toL "reference" ++ '"' :: ':' :: ' ' :: '"' :: (w ++ '/' :: (u ++ '"' :: t))))
      = some ⟨[], [' '], w, u, t⟩ := by
  have h1 : dropLit refKeyLit
      ('"' :: (toL "reference" ++ '"' :: ':' :: ' ' :: '"' :: (w ++ '/' :: (u ++ '"' :: t))))
      = some (':' :: ' ' :: '"' :: (w ++ '/' :: (u ++ '"' :: t))) := by
    have := dropLit_self refKeyLit (':' :: ' ' :: '"' :: (w ++ '/' :: (u ++ '"' :: t)))
    simpa [refKeyLit, List.append_assoc] using this
  have hps1 : pySpace ':' = false := by decide
  have hps2 : pySpace ' ' = true := by decide
  have hps3 : pySpace '"' = false := by decide
  have hwc' : wordChar '/' = false := by decide
  rw [tryMatch, h1]
  simp only [opt_bind_some]
  rw [List.takeWhile_cons, if_neg (by simp [hps1]), List.dropWhile_cons, if_neg (by simp [hps1])]
  rw [dropLit_one]
  simp only [opt_bind_some]
  rw [List.takeWhile_cons, if_pos hps2, List.takeWhile_cons, if_neg (by simp [hps3]),
    List.dropWhile_cons, if_pos hps2, List.dropWhile_cons, if_neg (by simp [hps3])]
  rw [dropLit_one]
  simp only [opt_bind_some]
  rw [takeWhile_app wordChar w '/' (u ++ '"' :: t) hwc hwc',
    dropWhile_app wordChar w '/' (u ++ '"' :: t) hwc hwc']
  rw [if_neg hw, dropLit_one]
  simp only [opt_bind_some]
  rw [hu ('"' :: t)]
  simp only [opt_bind_some]
  rw [dropLit_one]
  rfl

/-- The scan cannot start a match at a character other than a quote. -/
theorem tryMatch_quote_cons {c : Char} (hc : c ≠ 'r') (tl : List Char) :
    tryMatch ('"' :: c :: tl) = none := by
  have e : refKeyLit = '"' :: 'r' :: (toL "eference" ++ ['"']) := by decide
  have hd : dropLit refKeyLit ('"' :: c :: tl) = none := by
    rw [e, dropLit, if_pos rfl, dropLit, if_neg hc]
  rw [tryMatch, hd]
  rfl

theorem tryMatch_quote_nil : tryMatch ['"'] = none := by decide

/-- A quoted string other than "reference" cannot start a match. -/
theorem tryMatch_key_ne {k : List Char} (t : List Char) (hq : '"' ∉ k)
    (hk : k ≠ toL "reference") : tryMatch ('"' :: (k ++ '"' :: t)) = none := by
  rcases e : dropLit refKeyLit ('"' :: (k ++ '"' :: t)) with _ | r
  · rw [tryMatch, e]
    rfl
  · exfalso
    have hd := dropLit_decomp _ _ _ e
    rw [refKeyLit] at hd
    simp only [List.cons_append, List.append_assoc, List.cons.injEq,
      List.singleton_append, true_and] at hd
    exact hk (append_sep_inj hq (by decide) hd).1

/-- A quoted "reference" string standing as a value (followed by a
boundary, not by a colon) cannot start a match. -/
theorem tryMatch_ref_value_stop {t : List Char} (hb : boundary t) :
    tryMatch ('"' :: (toL "reference" ++ '"' :: t)) = none := by
  have h1 : dropLit refKeyLit ('"' :: (toL "reference" ++ '"' :: t)) = some t := by
    have := dropLit_self refKeyLit t
    simpa [refKeyLit, List.append_assoc] using this
  cases t with
  | nil =>
    rw [tryMatch, h1]
    rfl
  | cons c tl =>
    have hb' : c = ',' ∨ c = rbrace ∨ c = ']' := hb
    rw [tryMatch, h1]
    simp only [opt_bind_some]
    rcases hb' with rfl | rfl | rfl <;>
    · rw [List.dropWhile_cons, if_neg (by decide), dropLit, if_neg (by decide)]
      rfl

/-- A member "reference": v with a non-string value cannot start a
match. -/
theorem tryMatch_nonquote_value {c0 : Char} (rest : List Char) (hc0 : c0 ≠ '"')
    (hps : pySpace c0 = false) :
    tryMatch ('"' :: (toL "reference" ++ '"' :: ':' :: ' ' :: c0 :: rest)) = none := by
  have h1 : dropLit refKeyLit ('"' :: (toL "reference" ++ '"' :: ':' :: ' ' :: c0 :: rest))
      = some (':' :: ' ' :: c0 :: rest) := by
    have := dropLit_self refKeyLit (':' :: ' ' :: c0 :: rest)
    simpa [refKeyLit, List.append_assoc] using this
  rw [tryMatch, h1]
  simp only [opt_bind_some]
  rw [List.dropWhile_cons, if_neg (by simp [pySpace]), dropLit_one]
  simp only [opt_bind_some]
  rw [List.dropWhile_cons, if_pos (by decide), List.dropWhile_cons, if_neg (by simp [hps])]
  rw [dropLit, if_neg hc0]
  rfl

theorem replAll_no_occur :
    ∀ (f : Nat) (s pat rep : List Char) (c : Char), c ∈ pat → c ∉ s →
      replAllAux f s pat rep = s
  | 0, [], _, _, _, _, _ => rfl
  | 0, _ :: _, _, _, _, _, _ => rfl
  | _ + 1, [], _, _, _, _, _ => rfl
  | f + 1, x :: xs, pat, rep, c, hcp, hcs => by
    rw [replAllAux]
    rcases e : dropLit pat (x :: xs) with _ | r
    · rw [replAll_no_occur f xs pat rep c hcp (fun hm => hcs (List.mem_cons_of_mem x hm))]
    · exact absurd (dropLit_decomp _ _ _ e ▸ List.mem_append_left r hcp) hcs

theorem replAll_single :
    ∀ (f : Nat) (A w B rep : List Char), '/' ∉ A → '/' ∉ w → '/' ∉ B →
      (A ++ (w ++ '/' :: B)).length ≤ f →
      replAllAux f (A ++ (w ++ '/' :: B)) (w ++ ['/']) rep = A ++ (rep ++ B)
  | 0, A, w, B, rep, _, _, _, hf => by simp at hf
  | f + 1, [], w, B, rep, _, hw, hB, hf => by
    cases w with
    | nil =>
      simp only [List.nil_append, List.cons_append]
      rw [replAllAux, dropLit_one '/' B]
      dsimp only
      rw [replAll_no_occur f B (['/'] : List Char) rep '/' (List.mem_singleton.mpr rfl) hB]
    | cons wc w' =>
      simp only [List.nil_append, List.cons_append]
      rw [replAllAux]
      have hself : dropLit (wc :: (w' ++ ['/'])) (wc :: (w' ++ '/' :: B)) = some B := by
        have := dropLit_self (wc :: (w' ++ ['/'])) B
        simpa [List.append_assoc] using this
      rw [hself]
      dsimp only
      have hnp : '/' ∈ wc :: (w' ++ ['/']) :=
        List.mem_cons_of_mem wc (List.mem_append_right w' (List.mem_singleton.mpr rfl))
      rw [replAll_no_occur f B (wc :: (w' ++ ['/'])) rep '/' hnp hB]
  | f + 1, a :: A', w, B, rep, hA, hw, hB, hf => by
    have haA : '/' ∉ (a :: A') ++ w := by
      simp only [List.mem_append]
      exact fun hm => hm.elim (fun hm1 => hA hm1) (fun hm2 => hw hm2)
    simp only [List.cons_append]
    rw [replAllAux]
    rcases e : dropLit (w ++ ['/']) (a :: (A' ++ (w ++ '/' :: B))) with _ | r
    · have hA' : '/' ∉ A' := fun hm => hA (List.mem_cons_of_mem a hm)
      have hf' : (A' ++ (w ++ '/' :: B)).length ≤ f := by
        simp only [List.length_cons, List.length_append] at hf ⊢
        omega
      rw [replAll_single f A' w B rep hA' hw hB hf']
    · exfalso
      have hd := dropLit_decomp _ _ _ e
      have hd' : (a :: A' ++ w) ++ '/' :: B = w ++ '/' :: r := by
        simpa [List.append_assoc] using hd
      have := (append_sep_inj haA hw hd').1
      have hlen := congrArg List.length this
      simp only [List.length_append, List.length_cons] at hlen
      omega

theorem urnreplc_eval {w u : List Char} (rest : List Char) (hw : '/' ∉ w) (hu : '/' ∉ u) :
    urnreplc ⟨[], [' '], w, u, rest⟩ =
      ('"' :: (toL "reference" ++ '"' :: ':' :: ' ' :: ['"'])) ++ (toL "urn:uuid:" ++ (u ++ ['"'])) := by
  have hA : '/' ∉ '"' :: (toL "reference" ++ '"' :: ':' :: ' ' :: ['"']) := by decide
  have hB : '/' ∉ u ++ ['"'] := by
    simp only [List.mem_append, List.mem_singleton]
    rintro (hm | hm)
    · exact hu hm
    · exact absurd hm (by decide)
  have hm : matchedText ⟨[], [' '], w, u, rest⟩ =
      ('"' :: (toL "reference" ++ '"' :: ':' :: ' ' :: ['"'])) ++ (w ++ '/' :: (u ++ ['"'])) := by
    simp [matchedText, refKeyLit, List.append_assoc]
  rw [urnreplc, hm, replaceAll]
  exact replAll_single _ _ w (u ++ ['"']) (toL "urn:uuid:") hA hw hB (Nat.le_refl _)

theorem subst_nil : subst [] = [] := rfl

theorem subst_quote_boundary {t : List Char} (hb : boundary t) :
    subst ('"' :: t) = '"' :: subst t := by
  cases t with
  | nil => rw [subst_cons_nomatch tryMatch_quote_nil]
  | cons c tl =>
    have hb' : c = ',' ∨ c = rbrace ∨ c = ']' := hb
    have hc : c ≠ 'r' := by rcases hb' with rfl | rfl | rfl <;> decide
    rw [subst_cons_nomatch (tryMatch_quote_cons hc tl)]

theorem subst_plain_string (s t : List Char) (hp : plainL s = true) (hb : boundary t)
    (hhd : tryMatch ('"' :: (s ++ '"' :: t)) = none) :
    subst ('"' :: (s ++ '"' :: t)) = '"' :: (s ++ '"' :: subst t) := by
  rw [subst_cons_nomatch hhd,
    subst_app_no_quote s ('"' :: t) (fun x hx => plainChar_ne_quote (plainL_mem hp hx)),
    subst_quote_boundary hb]

theorem dropWhile_head_false (p : Char → Bool) :
    ∀ (l : List Char) (c : Char) (r : List Char), l.dropWhile p = c :: r → p c = false
  | [], c, r, h => by simp at h
  | x :: xs, c, r, h => by
    rw [List.dropWhile_cons] at h
    by_cases hx : p x = true
    · rw [if_pos hx] at h
      exact dropWhile_head_false p xs c r h
    · rw [if_neg hx] at h
      injection h with h1 _
      rw [← h1]
      exact Bool.eq_false_iff.mpr hx

theorem uuid_chars_no_quote {u : List Char}
    (hch : ∀ c ∈ u, hexLower c = true ∨ c = '-') : '"' ∉ u :=
  fun hm => (hch '"' hm).elim (fun h => absurd h (by decide)) (fun h => absurd h (by decide))

theorem uuid_chars_no_slash {u : List Char}
    (hch : ∀ c ∈ u, hexLower c = true ∨ c = '-') : '/' ∉ u :=
  fun hm => (hch '/' hm).elim (fun h => absurd h (by decide)) (fun h => absurd h (by decide))

theorem refShape_decomp {s : String} {u : List Char} (h : refShape s = some u) :
    s.data = s.data.takeWhile wordChar ++ '/' :: u ∧
      s.data.takeWhile wordChar ≠ [] ∧
      (∀ t2, matchUuid (u ++ t2) = some (u, t2)) ∧
      ∀ c ∈ u, hexLower c = true ∨ c = '-' := by
  simp only [refShape] at h
  by_cases hw : s.data.takeWhile wordChar = []
  · rw [if_pos hw] at h
    exact Option.noConfusion h
  rw [if_neg hw] at h
  rcases e1 : dropLit ['/'] (s.data.dropWhile wordChar) with _ | cs'' <;>
    rw [e1] at h <;> dsimp only at h
  · exact Option.noConfusion h
  rcases e2 : matchUuid cs'' with _ | ⟨u', rest⟩ <;> rw [e2] at h <;> dsimp only at h
  · exact Option.noConfusion h
  by_cases hr : rest = []
  · rw [if_pos hr] at h
    injection h with hu
    obtain ⟨hdec, hreplay, _, hch⟩ := matchUuid_decomp e2
    subst hu
    subst hr
    have hsd : s.data = s.data.takeWhile wordChar ++ '/' :: u' := by
      have hsplit := List.takeWhile_append_dropWhile wordChar s.data
      have hdw : s.data.dropWhile wordChar = '/' :: cs'' := dropLit_decomp _ _ _ e1
      rw [hdw] at hsplit
      have hcs : cs'' = u' := by simpa using hdec
      have hres := hsplit.symm
      rw [hcs] at hres
      exact hres
    exact ⟨hsd, hw, fun t2 => hreplay t2, hch⟩
  · rw [if_neg hr] at h
    exact Option.noConfusion h

/-- A member "reference": "s" whose string value does not have the
rewritable shape cannot start a match. -/
theorem tryMatch_value_no_shape (s : String) (t : List Char)
    (hplain : plainL s.data = true) (hnone : refShape s = none) :
    tryMatch ('"' :: (toL "reference" ++ '"' :: ':' :: ' ' :: '"' :: (s.data ++ '"' :: t)))
      = none := by
  have h1 : dropLit refKeyLit
      ('"' :: (toL "reference" ++ '"' :: ':' :: ' ' :: '"' :: (s.data ++ '"' :: t)))
      = some (':' :: ' ' :: '"' :: (s.data ++ '"' :: t)) := by
    have := dropLit_self refKeyLit (':' :: ' ' :: '"' :: (s.data ++ '"' :: t))
    simpa [refKeyLit, List.append_assoc] using this
  rw [tryMatch, h1]
  simp only [opt_bind_some]
  rw [List.dropWhile_cons, if_neg (by decide), dropLit_one]
  simp only [opt_bind_some]
  rw [List.dropWhile_cons, if_pos (by decide), List.dropWhile_cons, if_neg (by decide),
    dropLit_one]
  simp only [opt_bind_some]
  rcases e0 : s.data.dropWhile wordChar with _ | ⟨c0, r0'⟩
  · have hall : ∀ c ∈ s.data, wordChar c = true :=
      fun c hc => List.dropWhile_eq_nil_iff.mp e0 c hc
    rw [takeWhile_app wordChar s.data '"' t hall (by decide),
      dropWhile_app wordChar s.data '"' t hall (by decide)]
    by_cases hsd : s.data = []
    · rw [if_pos hsd]
    · rw [if_neg hsd, dropLit, if_neg (by decide : ¬('"' : Char) = '/')]
      rfl
  · have hw0 : ∀ c ∈ s.data.takeWhile wordChar, wordChar c = true :=
      fun c hc => List.mem_takeWhile_imp hc
    have hc0 : wordChar c0 = false := dropWhile_head_false wordChar s.data c0 r0' e0
    have hsplit : s.data = s.data.takeWhile wordChar ++ c0 :: r0' := by
      have := List.takeWhile_append_dropWhile wordChar s.data
      rw [e0] at this
      exact this.symm
    have hrearr : s.data ++ '"' :: t =
        s.data.takeWhile wordChar ++ c0 :: (r0' ++ '"' :: t) := by
      conv_lhs => rw [hsplit]
      simp [List.append_assoc]
    rw [hrearr, takeWhile_app wordChar _ c0 _ hw0 hc0, dropWhile_app wordChar _ c0 _ hw0 hc0]
    by_cases hwnil : s.data.takeWhile wordChar = []
    · rw [if_pos hwnil]
    · rw [if_neg hwnil]
      by_cases hc0s : c0 = '/'
      · subst hc0s
        rw [dropLit_one]
        simp only [opt_bind_some]
        rcases em : matchUuid (r0' ++ '"' :: t) with _ | ⟨u', r'⟩
        · rfl
        · simp only [opt_bind_some]
          obtain ⟨hdec, hreplay, _, hch⟩ := matchUuid_decomp em
          have hnq : '"' ∉ u' := uuid_chars_no_quote hch
          obtain ⟨a', ha', hr'⟩ := append_sep_split u' r0' '"' t r' hdec hnq
          cases a' with
          | nil =>
            exfalso
            have hshape : refShape s = some u' := by
              simp only [refShape]
              rw [if_neg hwnil, e0, dropLit_one]
              simp only [List.append_nil] at ha'
              rw [ha']
              dsimp only
              have hm : matchUuid u' = some (u', []) := by
                have := hreplay []
                simpa using this
              rw [hm]
              simp
            rw [hshape] at hnone
            exact Option.noConfusion hnone
          | cons c2 a'' =>
            have hc2 : c2 ∈ s.data := by
              rw [hsplit]
              refine List.mem_append_right _ (List.mem_cons_of_mem _ ?_)
              rw [ha']
              exact List.mem_append_right u' (List.mem_cons_self c2 a'')
            have hc2q : c2 ≠ '"' := plainChar_ne_quote (plainL_mem hplain hc2)
            rw [hr']
            simp only [List.cons_append]
            rw [dropLit, if_neg hc2q]
            rfl
      · rw [dropLit, if_neg hc0s]
        rfl

theorem dumpsJ_null : dumpsJ .null = toL "null" := rfl

theorem dumpsJ_true : dumpsJ (.bool true) = toL "true" := rfl

theorem dumpsJ_false : dumpsJ (.bool false) = toL "false" := rfl

theorem dumpsJ_num (r : List Char) : dumpsJ (.num r) = r := rfl

theorem dumpsJ_str (s : String) : dumpsJ (.str s) = '"' :: (escapeStr s.data ++ ['"']) := rfl

theorem dumpsJ_arr (xs : JList) : dumpsJ (.arr xs) = '[' :: (dumpsElems xs ++ [']']) := rfl

theorem dumpsJ_obj (kvs : JObj) :
    dumpsJ (.obj kvs) = lbrace :: (dumpsMembers kvs ++ [rbrace]) := rfl

theorem dumpsElems_one (x : Json) : dumpsElems (.cons x .nil) = dumpsJ x := rfl

theorem dumpsElems_cons (x y : Json) (tl : JList) :
    dumpsElems (.cons x (.cons y tl)) = dumpsJ x ++ ',' :: ' ' :: dumpsElems (.cons y tl) := rfl

theorem dumpsMembers_one (k : String) (v : Json) :
    dumpsMembers (.cons k v .nil) = dumpsKV k v := rfl

theorem dumpsMembers_cons (k : String) (v : Json) (k2 : String) (v2 : Json) (tl : JObj) :
    dumpsMembers (.cons k v (.cons k2 v2 tl)) =
      dumpsKV k v ++ ',' :: ' ' :: dumpsMembers (.cons k2 v2 tl) := rfl

theorem rewriteJ_null : rewriteJ .null = .null := rfl

theorem rewriteJ_bool (b : Bool) : rewriteJ (.bool b) = .bool b := rfl

theorem rewriteJ_num (r : List Char) : rewriteJ (.num r) = .num r := rfl

theorem rewriteJ_str (s : String) : rewriteJ (.str s) = .str s := rfl

theorem rewriteJ_arr (xs : JList) : rewriteJ (.arr xs) = .arr (rewriteL xs) := rfl

theorem rewriteJ_obj (kvs : JObj) : rewriteJ (.obj kvs) = .obj (rewriteO kvs) := rfl

theorem rewriteL_nil : rewriteL .nil = .nil := rfl

theorem rewriteL_cons (x : Json) (tl : JList) :
    rewriteL (.cons x tl) = .cons (rewriteJ x) (rewriteL tl) := rfl

theorem rewriteO_nil : rewriteO .nil = .nil := rfl

theorem rewriteO_cons (k : String) (v : Json) (tl : JObj) :
    rewriteO (.cons k v tl) = .cons k (rwVal k v) (rewriteO tl) := rfl

theorem numChar_ne_quote {c : Char} (h : numChar c = true) : c ≠ '"' :=
  fun he => absurd (he ▸ h) (by decide)

/-- The scan walks over "key": untouched when no match starts at its
opening quote, leaving the value text X to be scanned. -/
theorem subst_member_shell (k X : List Char) (hknq : '"' ∉ k)
    (h0 : tryMatch ('"' :: (k ++ '"' :: ':' :: ' ' :: X)) = none) :
    subst ('"' :: (k ++ '"' :: ':' :: ' ' :: X)) =
      '"' :: (k ++ '"' :: ':' :: ' ' :: subst X) := by
  rw [subst_cons_nomatch h0,
    subst_app_no_quote k _ (fun x hx he => hknq (he ▸ hx)),
    subst_cons_nomatch (tryMatch_quote_cons (by decide) _),
    subst_cons_nomatch (tryMatch_not_quote _ (by decide : (':' : Char) ≠ '"')),
    subst_cons_nomatch (tryMatch_not_quote _ (by decide : (' ' : Char) ≠ '"'))]

theorem rwVal_ref_nonstr : ∀ (v : Json), (∀ s, v ≠ .str s) → rwVal "reference" v = rewriteJ v
  | .null, _ => by rw [rwVal.eq_def, if_pos rfl]
  | .bool b, _ => by rw [rwVal.eq_def, if_pos rfl]
  | .num r, _ => by rw [rwVal.eq_def, if_pos rfl]
  | .str s, h => absurd rfl (h s)
  | .arr xs, _ => by rw [rwVal.eq_def, if_pos rfl]
  | .obj kvs, _ => by rw [rwVal.eq_def, if_pos rfl]

/-- Scan across a "reference" member with a non-string value: no match
starts there and the value is scanned recursively. -/
theorem scanMember_ref_nonstr (v : Json) (hv : wfJ v = true) (hns : ∀ s, v ≠ .str s)
    (IH : ∀ t, boundary t → subst (dumpsJ v ++ t) = dumpsJ (rewriteJ v) ++ subst t)
    (t : List Char) (hb : boundary t) :
    subst (dumpsKV "reference" v ++ t) =
      dumpsKV "reference" (rwVal "reference" v) ++ subst t := by
  obtain ⟨c0, cs0, hd, hq, hps, _⟩ := dumps_head_nonstr v hv hns
  have hrw : rwVal "reference" v = rewriteJ v := rwVal_ref_nonstr v hns
  have hkeq : escapeStr ("reference" : String).data = toL "reference" := by decide
  have hL : dumpsKV "reference" v ++ t =
      '"' :: (toL "reference" ++ '"' :: ':' :: ' ' :: (dumpsJ v ++ t)) := by
    rw [dumpsKV, hkeq]
    simp [List.append_assoc]
  have h0 : tryMatch ('"' :: (toL "reference" ++ '"' :: ':' :: ' ' :: (dumpsJ v ++ t)))
      = none := by
    rw [hd]
    have := tryMatch_nonquote_value (cs0 ++ t) hq hps
    simpa [List.append_assoc] using this
  rw [hL, subst_member_shell _ _ (by decide) h0, IH t hb, hrw, dumpsKV, hkeq]
  simp [List.append_assoc]

/-- Scan across a "reference" member with a string value: a refShape
value is rewritten to urn:uuid form, any other string is untouched. -/
theorem scanMember_ref_str (s : String) (hv : wfJ (.str s) = true)
    (t : List Char) (hb : boundary t) :
    subst (dumpsKV "reference" (.str s) ++ t) =
      dumpsKV "reference" (rwVal "reference" (.str s)) ++ subst t := by
  have hvp : plainL s.data = true := hv
  have hkeq : escapeStr ("reference" : String).data = toL "reference" := by decide
  rcases e : refShape s with _ | u
  · have hrw : rwVal "reference" (.str s) = .str s := by
      rw [rwVal.eq_def, if_pos rfl]
      dsimp only
      rw [e]
      exact rewriteJ_str s
    have hL : dumpsKV "reference" (.str s) ++ t =
        '"' :: (toL "reference" ++ '"' :: ':' :: ' ' :: ('"' :: (s.data ++ '"' :: t))) := by
      rw [dumpsKV, hkeq, dumpsJ_str, escapeStr_plain _ hvp]
      simp [List.append_assoc]
    have h0 := tryMatch_value_no_shape s t hvp e
    have hval : tryMatch ('"' :: (s.data ++ '"' :: t)) = none := by
      by_cases hsd : s.data = toL "reference"
      · rw [hsd]
        exact tryMatch_ref_value_stop hb
      · exact tryMatch_key_ne t (plain_no_quote hvp) hsd
    rw [hL, subst_member_shell _ _ (by decide) h0,
      subst_plain_string s.data t hvp hb hval, hrw, dumpsKV, hkeq, dumpsJ_str,
      escapeStr_plain _ hvp]
    simp [List.append_assoc]
  · obtain ⟨hsd, hwne, hreplay, hch⟩ := refShape_decomp e
    set w := s.data.takeWhile wordChar
    have hwc : ∀ c ∈ w, wordChar c = true := fun c hc => List.mem_takeWhile_imp hc
    have hplain_u : plainL u = true := by
      rw [plainL, List.all_eq_true]
      intro c hc
      have hcm : c ∈ s.data := by
        rw [hsd]
        exact List.mem_append_right w (List.mem_cons_of_mem '/' hc)
      exact plainL_mem hvp hcm
    have hrw : rwVal "reference" (.str s) = .str ("urn:uuid:" ++ String.mk u) := by
      rw [rwVal.eq_def, if_pos rfl]
      dsimp only
      rw [e]
    have hL : dumpsKV "reference" (.str s) ++ t =
        '"' :: (toL "reference" ++ '"' :: ':' :: ' ' :: '"' :: (w ++ '/' :: (u ++ '"' :: t))) := by
      rw [dumpsKV, hkeq, dumpsJ_str, escapeStr_plain _ hvp]
      conv_lhs => rw [hsd]
      simp [List.append_assoc]
    have hm := tryMatch_success t hwne hwc hreplay
    have hwslash : '/' ∉ w := fun hmem => wordChar_ne_slash (hwc _ hmem) rfl
    have huslash : '/' ∉ u := uuid_chars_no_slash hch
    rw [hL, subst_cons_match hm]
    dsimp only
    rw [urnreplc_eval t hwslash huslash, hrw, dumpsKV, hkeq, dumpsJ_str]
    have hdata : ("urn:uuid:" ++ String.mk u).data = toL "urn:uuid:" ++ u :=
      String.data_append "urn:uuid:" (String.mk u)
    have hplain2 : plainL (toL "urn:uuid:" ++ u) = true := by
      rw [plainL, List.all_append]
      rw [plainL] at hplain_u
      rw [hplain_u]
      decide
    rw [hdata, escapeStr_plain _ hplain2]
    simp [List.append_assoc]

/-- Scan across one dumped object member: the value is rewritten by
rwVal, the key text kept. -/
theorem scanMember (k : String) (v : Json) (hk : plainL k.data = true) (hv : wfJ v = true)
    (IH : ∀ t, boundary t → subst (dumpsJ v ++ t) = dumpsJ (rewriteJ v) ++ subst t)
    (t : List Char) (hb : boundary t) :
    subst (dumpsKV k v ++ t) = dumpsKV k (rwVal k v) ++ subst t := by
  by_cases hkr : k = "reference"
  · subst hkr
    rcases v with _ | b | r | s | xs | kvs
    · exact scanMember_ref_nonstr _ hv (fun s h => Json.noConfusion h) IH t hb
    · exact scanMember_ref_nonstr _ hv (fun s h => Json.noConfusion h) IH t hb
    · exact scanMember_ref_nonstr _ hv (fun s h => Json.noConfusion h) IH t hb
    · exact scanMember_ref_str s hv t hb
    · exact scanMember_ref_nonstr _ hv (fun s h => Json.noConfusion h) IH t hb
    · exact scanMember_ref_nonstr _ hv (fun s h => Json.noConfusion h) IH t hb
  · have hkd : k.data ≠ toL "reference" := fun hd => hkr (congrArg String.mk hd)
    have hrw : rwVal k v = rewriteJ v := by rw [rwVal.eq_def, if_neg hkr]
    have hL : dumpsKV k v ++ t = '"' :: (k.data ++ '"' :: ':' :: ' ' :: (dumpsJ v ++ t)) := by
      rw [dumpsKV, escapeStr_plain _ hk]
      simp [List.append_assoc]
    rw [hL, subst_member_shell _ _ (plain_no_quote hk)
        (tryMatch_key_ne _ (plain_no_quote hk) hkd),
      IH t hb, hrw, dumpsKV, escapeStr_plain _ hk]
    simp [List.append_assoc]

theorem dumpsElems_nil : dumpsElems .nil = [] := rfl

theorem dumpsMembers_nil : dumpsMembers .nil = [] := rfl

theorem wf_num_all {r : List Char} (hv : wfJ (.num r) = true) :
    ∀ c ∈ r, numChar c = true := by
  cases r with
  | nil => exact fun c hc => absurd hc (List.not_mem_nil c)
  | cons c0 r' =>
    have hv' : (!(c0 :: r').isEmpty && (c0 :: r').all numChar && numHead c0) = true := hv
    simp only [Bool.and_eq_true] at hv'
    exact fun c hc => List.all_eq_true.mp hv'.1.2 c hc

mutual
/-- Core scan lemma: on the dumped text of a well-formed value followed
by a boundary, re.sub produces exactly the dumped text of the rewritten
value, then scans the boundary. -/
theorem scanJ : ∀ (v : Json), wfJ v = true → ∀ t, boundary t →
    subst (dumpsJ v ++ t) = dumpsJ (rewriteJ v) ++ subst t
  | .null, _, t, _ => by
    rw [dumpsJ_null, rewriteJ_null, dumpsJ_null, subst_app_no_quote _ t (by decide)]
  | .bool true, _, t, _ => by
    rw [dumpsJ_true, rewriteJ_bool, dumpsJ_true, subst_app_no_quote _ t (by decide)]
  | .bool false, _, t, _ => by
    rw [dumpsJ_false, rewriteJ_bool, dumpsJ_false, subst_app_no_quote _ t (by decide)]
  | .num r, hv, t, _ => by
    rw [dumpsJ_num, rewriteJ_num, dumpsJ_num,
      subst_app_no_quote r t (fun x hx => numChar_ne_quote (wf_num_all hv x hx))]
  | .str s, hv, t, hb => by
    have hvp : plainL s.data = true := hv
    rw [dumpsJ_str, rewriteJ_str, dumpsJ_str, escapeStr_plain _ hvp]
    have hval : tryMatch ('"' :: (s.data ++ '"' :: t)) = none := by
      by_cases hsd : s.data = toL "reference"
      · rw [hsd]
        exact tryMatch_ref_value_stop hb
      · exact tryMatch_key_ne t (plain_no_quote hvp) hsd
    have halign : ('"' :: (s.data ++ ['"'])) ++ t = '"' :: (s.data ++ '"' :: t) := by
      simp [List.append_assoc]
    rw [halign, subst_plain_string s.data t hvp hb hval]
    simp [List.append_assoc]
  | .arr xs, hv, t, _ => by
    have hxs : wfL xs = true := hv
    rw [dumpsJ_arr, rewriteJ_arr, dumpsJ_arr]
    have halign : ('[' :: (dumpsElems xs ++ [']'])) ++ t =
        '[' :: (dumpsElems xs ++ (']' :: t)) := by
      simp [List.append_assoc]
    rw [halign, subst_cons_nomatch (tryMatch_not_quote _ (by decide : ('[' : Char) ≠ '"')),
      scanL xs hxs (']' :: t) (Or.inr (Or.inr rfl)),
      subst_cons_nomatch (tryMatch_not_quote _ (by decide : (']' : Char) ≠ '"'))]
    simp [List.append_assoc]
  | .obj kvs, hv, t, _ => by
    have h2 : (wfO kvs && keysUnique kvs.toList) = true := hv
    simp only [Bool.and_eq_true] at h2
    have hkvs : wfO kvs = true := h2.1
    rw [dumpsJ_obj, rewriteJ_obj, dumpsJ_obj]
    have halign : (lbrace :: (dumpsMembers kvs ++ [rbrace])) ++ t =
        lbrace :: (dumpsMembers kvs ++ (rbrace :: t)) := by
      simp [List.append_assoc]
    rw [halign, subst_cons_nomatch (tryMatch_not_quote _ (by decide : lbrace ≠ '"')),
      scanO kvs hkvs (rbrace :: t) (Or.inr (Or.inl rfl)),
      subst_cons_nomatch (tryMatch_not_quote _ (by decide : rbrace ≠ '"'))]
    simp [List.append_assoc]

theorem scanL : ∀ (xs : JList), wfL xs = true → ∀ t, boundary t →
    subst (dumpsElems xs ++ t) = dumpsElems (rewriteL xs) ++ subst t
  | .nil, _, t, _ => by
    rw [rewriteL_nil, dumpsElems_nil]
    simp
  | .cons x .nil, hv, t, hb => by
    have hv' : (wfJ x && wfL .nil) = true := hv
    simp only [Bool.and_eq_true] at hv'
    rw [dumpsElems_one, rewriteL_cons, rewriteL_nil, dumpsElems_one]
    exact scanJ x hv'.1 t hb
  | .cons x (.cons y tl), hv, t, hb => by
    have hv' : (wfJ x && wfL (.cons y tl)) = true := hv
    simp only [Bool.and_eq_true] at hv'
    obtain ⟨hx, hyt⟩ := hv'
    rw [dumpsElems_cons]
    have halign : (dumpsJ x ++ ',' :: ' ' :: dumpsElems (.cons y tl)) ++ t =
        dumpsJ x ++ (',' :: ' ' :: (dumpsElems (.cons y tl) ++ t)) := by
      simp [List.append_assoc]
    rw [halign, scanJ x hx (',' :: ' ' :: (dumpsElems (.cons y tl) ++ t)) (Or.inl rfl),
      subst_cons_nomatch (tryMatch_not_quote _ (by decide : (',' : Char) ≠ '"')),
      subst_cons_nomatch (tryMatch_not_quote _ (by decide : (' ' : Char) ≠ '"')),
      scanL (.cons y tl) hyt t hb]
    simp [rewriteL_cons, dumpsElems_cons, List.append_assoc]

theorem scanO : ∀ (kvs : JObj), wfO kvs = true → ∀ t, boundary t →
    subst (dumpsMembers kvs ++ t) = dumpsMembers (rewriteO kvs) ++ subst t
  | .nil, _, t, _ => by
    rw [rewriteO_nil, dumpsMembers_nil]
    simp
  | .cons k v .nil, hv, t, hb => by
    have hv' : (plainL k.data && wfJ v && wfO .nil) = true := hv
    simp only [Bool.and_eq_true] at hv'
    rw [dumpsMembers_one, rewriteO_cons, rewriteO_nil, dumpsMembers_one]
    exact scanMember k v hv'.1.1 hv'.1.2 (fun t' hb' => scanJ v hv'.1.2 t' hb') t hb
  | .cons k v (.cons k2 v2 tl), hv, t, hb => by
    have hv' : (plainL k.data && wfJ v && wfO (.cons k2 v2 tl)) = true := hv
    simp only [Bool.and_eq_true] at hv'
    rw [dumpsMembers_cons]
    have halign : (dumpsKV k v ++ ',' :: ' ' :: dumpsMembers (.cons k2 v2 tl)) ++ t =
        dumpsKV k v ++ (',' :: ' ' :: (dumpsMembers (.cons k2 v2 tl) ++ t)) := by
      simp [List.append_assoc]
    rw [halign,
      scanMember k v hv'.1.1 hv'.1.2 (fun t' hb' => scanJ v hv'.1.2 t' hb')
        (',' :: ' ' :: (dumpsMembers (.cons k2 v2 tl) ++ t)) (Or.inl rfl),
      subst_cons_nomatch (tryMatch_not_quote _ (by decide : (',' : Char) ≠ '"')),
      subst_cons_nomatch (tryMatch_not_quote _ (by decide : (' ' : Char) ≠ '"')),
      scanO (.cons k2 v2 tl) hv'.2 t hb]
    simp [rewriteO_cons, dumpsMembers_cons, List.append_assoc]
end

/-- The substitution on a whole dumped document. -/
theorem subst_dumps (p : Json) (hw : wfJ p = true) :
    subst (dumpsJ p) = dumpsJ (rewriteJ p) := by
  have h := scanJ p hw [] True.intro
  rw [List.append_nil, subst_nil, List.append_nil] at h
  exact h

theorem plainChar_ne_backslash {c : Char} (h : plainChar c = true) : c ≠ '\\' :=
  fun he => absurd (he ▸ h) (by decide)

theorem parseVal_succ (f : Nat) (cs0 : List Char) :
    parseVal (f + 1) cs0 =
      match skipJWs cs0 with
      | [] => none
      | c :: rest =>
        if c = lbrace then parseObjBody f rest
        else if c = '[' then parseArrBody f rest
        else if c = '"' then
          (parseStrAux (rest.length + 1) rest).map
            (fun p => (Json.str (String.mk p.1), p.2))
        else if c = 'n' then (dropLit (toL "ull") rest).map (fun r => (Json.null, r))
        else if c = 't' then (dropLit (toL "rue") rest).map (fun r => (Json.bool true, r))
        else if c = 'f' then (dropLit (toL "alse") rest).map (fun r => (Json.bool false, r))
        else if numHead c then
          some (Json.num (c :: rest.takeWhile numChar), rest.dropWhile numChar)
        else none := rfl

theorem parseArrBody_succ (f : Nat) (cs : List Char) :
    parseArrBody (f + 1) cs =
      match skipJWs cs with
      | [] => none
      | c :: rest =>
        if c = ']' then some (jarr [], rest)
        else (parseElems f (c :: rest)).map (fun p => (jarr p.1, p.2)) := rfl

theorem parseElems_succ (f : Nat) (cs : List Char) :
    parseElems (f + 1) cs =
      (do
        let (v, cs1) ← parseVal f cs
        match skipJWs cs1 with
        | [] => none
        | c :: rest =>
          if c = ',' then do
            let (vs, cs2) ← parseElems f rest
            some (v :: vs, cs2)
          else if c = ']' then some ([v], rest)
          else none) := rfl

theorem parseObjBody_succ (f : Nat) (cs : List Char) :
    parseObjBody (f + 1) cs =
      match skipJWs cs with
      | [] => none
      | c :: rest =>
        if c = rbrace then some (jobj [], rest)
        else (parseMembers f (c :: rest) []).map (fun p => (jobj p.1, p.2)) := rfl

theorem parseMembers_succ (f : Nat) (cs : List Char) (acc : List (String × Json)) :
    parseMembers (f + 1) cs acc =
      (match skipJWs cs with
      | [] => none
      | c :: rest =>
        if c = '"' then do
          let (kcs, cs1) ← parseStrAux (rest.length + 1) rest
          let cs2 ← dropLit [':'] (skipJWs cs1)
          let (v, cs3) ← parseVal f cs2
          let acc' := updAssoc acc (String.mk kcs) v
          match skipJWs cs3 with
          | [] => none
          | c2 :: rest2 =>
            if c2 = ',' then parseMembers f rest2 acc'
            else if c2 = rbrace then some (acc', rest2)
            else none
        else none) := rfl

theorem skipJWs_cons_ws {c : Char} (h : jsonWs c = true) (cs : List Char) :
    skipJWs (c :: cs) = skipJWs cs := by
  simp [skipJWs, List.dropWhile_cons, h]

theorem skipJWs_cons_not {c : Char} (h : jsonWs c = false) (cs : List Char) :
    skipJWs (c :: cs) = c :: cs := by
  simp [skipJWs, List.dropWhile_cons, h]

theorem parseVal_ws_cons (f : Nat) {c : Char} (h : jsonWs c = true) (cs : List Char) :
    parseVal f (c :: cs) = parseVal f cs := by
  cases f with
  | zero => rfl
  | succ f' => rw [parseVal_succ, parseVal_succ, skipJWs_cons_ws h]

theorem parseStrAux_plain :
    ∀ (s r : List Char) (f : Nat), plainL s = true → s.length + 1 ≤ f →
      parseStrAux f (s ++ '"' :: r) = some (s, r)
  | [], r, f, _, hf => by
    cases f with
    | zero => simp at hf
    | succ f' =>
      rw [List.nil_append, parseStrAux.eq_def]
      dsimp only
      rw [if_pos rfl]
  | c :: s', r, f, hp, hf => by
    cases f with
    | zero => simp at hf
    | succ f' =>
      have hpc : plainChar c = true := plainL_mem hp (List.mem_cons_self c s')
      have hp' : plainL s' = true := by
        rw [plainL, List.all_eq_true] at hp ⊢
        exact fun x hx => hp x (List.mem_cons_of_mem c hx)
      have hf' : s'.length + 1 ≤ f' := by
        simp only [List.length_cons] at hf
        omega
      rw [List.cons_append, parseStrAux.eq_def]
      dsimp only
      rw [if_neg (plainChar_ne_quote hpc), if_neg (plainChar_ne_backslash hpc),
        parseStrAux_plain s' r f' hp' hf']
      rfl

theorem dumps_head_parse (v : Json) (hv : wfJ v = true) :
    ∃ c cs, dumpsJ v = c :: cs ∧ jsonWs c = false ∧ c ≠ ']' ∧ c ≠ rbrace := by
  by_cases hstr : ∃ s, v = .str s
  · obtain ⟨s, rfl⟩ := hstr
    exact ⟨'"', _, dumpsJ_str s, by decide, by decide, by decide⟩
  · cases v with
    | null => exact ⟨'n', toL "ull", by decide, by decide, by decide, by decide⟩
    | bool b =>
      cases b
      · exact ⟨'f', toL "alse", by decide, by decide, by decide, by decide⟩
      · exact ⟨'t', toL "rue", by decide, by decide, by decide, by decide⟩
    | num r =>
      cases r with
      | nil => exact absurd (show wfJ (Json.num []) = true from hv) (by decide)
      | cons c r' =>
        have hv' : (!(c :: r').isEmpty && (c :: r').all numChar && numHead c) = true := hv
        simp only [Bool.and_eq_true] at hv'
        exact ⟨c, r', rfl, numHead_not_jsonWs hv'.2, numHead_ne hv'.2 (by decide),
          numHead_ne hv'.2 (by decide)⟩
    | str s => exact absurd ⟨s, rfl⟩ hstr
    | arr xs => exact ⟨'[', dumpsElems xs ++ [']'], rfl, by decide, by decide, by decide⟩
    | obj kvs =>
      exact ⟨lbrace, dumpsMembers kvs ++ [rbrace], rfl, by decide, by decide, by decide⟩

theorem dumpsElems_head (x : Json) (tl : JList) :
    ∃ suf, dumpsElems (.cons x tl) = dumpsJ x ++ suf := by
  cases tl with
  | nil => exact ⟨[], by rw [dumpsElems_one, List.append_nil]⟩
  | cons y tl' => exact ⟨_, dumpsElems_cons x y tl'⟩

theorem dumpsMembers_head (k : String) (v : Json) (tl : JObj) :
    ∃ suf, dumpsMembers (.cons k v tl) = dumpsKV k v ++ suf := by
  cases tl with
  | nil => exact ⟨[], by rw [dumpsMembers_one, List.append_nil]⟩
  | cons k2 v2 tl' => exact ⟨_, dumpsMembers_cons k v k2 v2 tl'⟩

theorem keysUnique_cons {k : String} {v : Json} {L : List (String × Json)}
    (h : keysUnique ((k, v) :: L) = true) :
    lookupKV L k = none ∧ keysUnique L = true := by
  rw [keysUnique] at h
  rcases e : lookupKV L k with _ | w <;> rw [e] at h
  · exact ⟨rfl, h⟩
  · exact Bool.noConfusion h

theorem JObj_toList_cons (k : String) (v : Json) (tl : JObj) :
    (JObj.cons k v tl).toList = (k, v) :: tl.toList := rfl

theorem JList_toList_cons (x : Json) (tl : JList) :
    (JList.cons x tl).toList = x :: tl.toList := rfl

theorem JObj_toList_nil : (JObj.nil).toList = [] := rfl

theorem JList_toList_nil : (JList.nil).toList = [] := rfl

theorem skipJWs_pre {pre : List Char} (hpre : pre = [] ∨ pre = [' ']) (X : List Char) :
    skipJWs (pre ++ X) = skipJWs X := by
  rcases hpre with rfl | rfl
  · rw [List.nil_append]
  · rw [List.singleton_append, skipJWs_cons_ws (by decide)]

theorem parseVal_pre (f : Nat) {pre : List Char} (hpre : pre = [] ∨ pre = [' '])
    (X : List Char) : parseVal f (pre ++ X) = parseVal f X := by
  rcases hpre with rfl | rfl
  · rw [List.nil_append]
  · rw [List.singleton_append, parseVal_ws_cons f (by decide)]

mutual
/-- Parser roundtrip: parsing the dumped text of a well-formed value
followed by a boundary recovers exactly the value and the boundary. -/
theorem ptJ : ∀ (v : Json), wfJ v = true → ∀ (t : List Char) (f : Nat), boundary t →
    pFuelJ v ≤ f → parseVal f (dumpsJ v ++ t) = some (v, t)
  | .null, _, t, f, _, hf => by
    have h1 : (1 : Nat) ≤ f := hf
    cases f with
    | zero => omega
    | succ f1 =>
      rw [show dumpsJ .null = 'n' :: toL "ull" from by decide]
      simp only [List.cons_append]
      rw [parseVal_succ, skipJWs_cons_not (by decide)]
      dsimp only
      rw [if_neg (by decide), if_neg (by decide), if_neg (by decide), if_pos rfl,
        dropLit_self]
      rfl
  | .bool true, _, t, f, _, hf => by
    have h1 : (1 : Nat) ≤ f := hf
    cases f with
    | zero => omega
    | succ f1 =>
      rw [show dumpsJ (.bool true) = 't' :: toL "rue" from by decide]
      simp only [List.cons_append]
      rw [parseVal_succ, skipJWs_cons_not (by decide)]
      dsimp only
      rw [if_neg (by decide), if_neg (by decide), if_neg (by decide), if_neg (by decide),
        if_pos rfl, dropLit_self]
      rfl
  | .bool false, _, t, f, _, hf => by
    have h1 : (1 : Nat) ≤ f := hf
    cases f with
    | zero => omega
    | succ f1 =>
      rw [show dumpsJ (.bool false) = 'f' :: toL "alse" from by decide]
      simp only [List.cons_append]
      rw [parseVal_succ, skipJWs_cons_not (by decide)]
      dsimp only
      rw [if_neg (by decide), if_neg (by decide), if_neg (by decide), if_neg (by decide),
        if_neg (by decide), if_pos rfl, dropLit_self]
      rfl
  | .num r, hv, t, f, hb, hf => by
    have h1 : (1 : Nat) ≤ f := hf
    cases f with
    | zero => omega
    | succ f1 =>
      rcases r with _ | ⟨c0, r'⟩
      · exact absurd (show wfJ (Json.num []) = true from hv) (by decide)
      · have hv' : (!(c0 :: r').isEmpty && (c0 :: r').all numChar && numHead c0) = true := hv
        simp only [Bool.and_eq_true] at hv'
        have hnh : numHead c0 = true := hv'.2
        have hall' : ∀ c ∈ r', numChar c = true :=
          fun c hc => List.all_eq_true.mp hv'.1.2 c (List.mem_cons_of_mem c0 hc)
        rw [dumpsJ_num]
        simp only [List.cons_append]
        rw [parseVal_succ, skipJWs_cons_not (numHead_not_jsonWs hnh)]
        dsimp only
        rw [if_neg (numHead_ne hnh (by decide)), if_neg (numHead_ne hnh (by decide)),
          if_neg (numHead_ne hnh (by decide)), if_neg (numHead_ne hnh (by decide)),
          if_neg (numHead_ne hnh (by decide)), if_neg (numHead_ne hnh (by decide)),
          if_pos hnh]
        cases t with
        | nil =>
          rw [List.append_nil, List.takeWhile_eq_self_iff.mpr hall',
            List.dropWhile_eq_nil_iff.mpr hall']
        | cons b tb =>
          have hb' : b = ',' ∨ b = rbrace ∨ b = ']' := hb
          have hnb : numChar b = false := by rcases hb' with rfl | rfl | rfl <;> decide
          rw [takeWhile_app numChar r' b tb hall' hnb, dropWhile_app numChar r' b tb hall' hnb]
  | .str s, hv, t, f, _, hf => by
    have h1 : (1 : Nat) ≤ f := hf
    cases f with
    | zero => omega
    | succ f1 =>
      have hvp : plainL s.data = true := hv
      rw [dumpsJ_str, escapeStr_plain _ hvp]
      have halign : ('"' :: (s.data ++ ['"'])) ++ t = '"' :: (s.data ++ '"' :: t) := by
        simp [List.append_assoc]
      rw [halign, parseVal_succ, skipJWs_cons_not (by decide)]
      dsimp only
      rw [if_neg (by decide), if_neg (by decide), if_pos rfl,
        parseStrAux_plain s.data t _ hvp (by simp [List.length_append])]
      rfl
  | .arr xs, hv, t, f, hb, hf => by
    have hxs : wfL xs = true := hv
    have hfa : 2 + pFuelL xs ≤ f := hf
    cases f with
    | zero => omega
    | succ f1 =>
      rw [dumpsJ_arr]
      have halign : ('[' :: (dumpsElems xs ++ [']'])) ++ t =
          '[' :: (dumpsElems xs ++ (']' :: t)) := by
        simp [List.append_assoc]
      rw [halign, parseVal_succ, skipJWs_cons_not (by decide)]
      dsimp only
      rw [if_neg (by decide), if_pos rfl]
      cases f1 with
      | zero => omega
      | succ f2 =>
        rw [parseArrBody_succ]
        cases xs with
        | nil =>
          rw [dumpsElems_nil, List.nil_append, skipJWs_cons_not (by decide)]
          dsimp only
          rw [if_pos rfl]
          rfl
        | cons x tl =>
          have hx' : (wfJ x && wfL tl) = true := hxs
          simp only [Bool.and_eq_true] at hx'
          obtain ⟨c, cs0, hd, hws, hne1, _⟩ := dumps_head_parse x hx'.1
          obtain ⟨suf, hsuf⟩ := dumpsElems_head x tl
          have hback : c :: (cs0 ++ (suf ++ (']' :: t))) =
              dumpsElems (.cons x tl) ++ (']' :: t) := by
            rw [hsuf, hd]
            simp [List.append_assoc]
          rw [hsuf, hd]
          simp only [List.cons_append, List.append_assoc]
          rw [skipJWs_cons_not hws]
          dsimp only
          rw [if_neg hne1, hback]
          have hL := ptL (.cons x tl) hxs (fun h => JList.noConfusion h) t f2 []
            hb (by omega) (Or.inl rfl)
          rw [List.nil_append] at hL
          rw [hL]
          simp [jarr, JList.ofList_toList]
  | .obj kvs, hv, t, f, hb, hf => by
    have h2 : (wfO kvs && keysUnique kvs.toList) = true := hv
    simp only [Bool.and_eq_true] at h2
    have hfo : 2 + pFuelO kvs ≤ f := hf
    cases f with
    | zero => omega
    | succ f1 =>
      rw [dumpsJ_obj]
      have halign : (lbrace :: (dumpsMembers kvs ++ [rbrace])) ++ t =
          lbrace :: (dumpsMembers kvs ++ (rbrace :: t)) := by
        simp [List.append_assoc]
      rw [halign, parseVal_succ, skipJWs_cons_not (by decide)]
      dsimp only
      rw [if_pos rfl]
      cases f1 with
      | zero => omega
      | succ f2 =>
        rw [parseObjBody_succ]
        cases kvs with
        | nil =>
          rw [dumpsMembers_nil, List.nil_append, skipJWs_cons_not (by decide)]
          dsimp only
          rw [if_pos rfl]
          rfl
        | cons k v tl =>
          have hO : (plainL k.data && wfJ v && wfO tl) = true := h2.1
          simp only [Bool.and_eq_true] at hO
          obtain ⟨suf, hsuf⟩ := dumpsMembers_head k v tl
          have hback : '"' :: ((escapeStr k.data ++ '"' :: ':' :: ' ' :: dumpsJ v) ++
              (suf ++ (rbrace :: t))) = dumpsMembers (.cons k v tl) ++ (rbrace :: t) := by
            rw [hsuf, dumpsKV]
            simp [List.append_assoc]
          rw [hsuf, dumpsKV]
          simp only [List.cons_append, List.append_assoc]
          rw [skipJWs_cons_not (by decide)]
          dsimp only
          rw [if_neg (by decide)]
          rw [show ('"' :: (escapeStr k.data ++
              ('"' :: ':' :: ' ' :: (dumpsJ v ++ (suf ++ (rbrace :: t)))))) =
              dumpsMembers (.cons k v tl) ++ (rbrace :: t) from by
            rw [hsuf, dumpsKV]
            simp [List.append_assoc]]
          have hM := ptO (.cons k v tl) h2.1 (fun h => JObj.noConfusion h) t f2 [] []
            hb (by omega) (Or.inl rfl) h2.2 (fun p _ => rfl)
          rw [List.nil_append] at hM
          rw [hM]
          simp [jobj, JObj.ofListToList]

theorem ptL : ∀ (xs : JList), wfL xs = true → xs ≠ .nil →
    ∀ (t : List Char) (f : Nat) (pre : List Char), boundary t →
      pFuelL xs ≤ f → (pre = [] ∨ pre = [' ']) →
      parseElems f (pre ++ (dumpsElems xs ++ (']' :: t))) = some (xs.toList, t)
  | .nil, _, hne, _, _, _, _, _, _ => absurd rfl hne
  | .cons x tl, hw, _, t, f, pre, hb, hf, hpre => by
    have hx' : (wfJ x && wfL tl) = true := hw
    simp only [Bool.and_eq_true] at hx'
    have efl : pFuelL (JList.cons x tl) = 1 + pFuelJ x + pFuelL tl := rfl
    cases f with
    | zero => omega
    | succ f2 =>
      rw [parseElems_succ, parseVal_pre f2 hpre _]
      cases tl with
      | nil =>
        rw [dumpsElems_one,
          ptJ x hx'.1 (']' :: t) f2 (Or.inr (Or.inr rfl)) (by omega)]
        simp only [opt_bind_some]
        rw [skipJWs_cons_not (by decide)]
        dsimp only
        rw [if_neg (by decide), if_pos rfl]
        rfl
      | cons y tl' =>
        rw [dumpsElems_cons]
        have halign : (dumpsJ x ++ ',' :: ' ' :: dumpsElems (.cons y tl')) ++ (']' :: t) =
            dumpsJ x ++ (',' :: ' ' :: (dumpsElems (.cons y tl') ++ (']' :: t))) := by
          simp [List.append_assoc]
        rw [halign,
          ptJ x hx'.1 (',' :: ' ' :: (dumpsElems (.cons y tl') ++ (']' :: t))) f2
            (Or.inl rfl) (by omega)]
        simp only [opt_bind_some]
        rw [skipJWs_cons_not (by decide)]
        dsimp only
        rw [if_pos rfl]
        have efl2 : pFuelL (JList.cons y tl') = 1 + pFuelJ y + pFuelL tl' := rfl
        have hrec := ptL (.cons y tl') hx'.2 (fun h => JList.noConfusion h) t f2 [' ']
          hb (by omega) (Or.inr rfl)
        simp only [List.singleton_append] at hrec
        rw [hrec]
        rfl

theorem ptO : ∀ (kvs : JObj), wfO kvs = true → kvs ≠ .nil →
    ∀ (t : List Char) (f : Nat) (pre : List Char) (acc : List (String × Json)),
      boundary t → pFuelO kvs ≤ f → (pre = [] ∨ pre = [' ']) →
      keysUnique kvs.toList = true →
      (∀ p ∈ kvs.toList, lookupKV acc p.1 = none) →
      parseMembers f (pre ++ (dumpsMembers kvs ++ (rbrace :: t))) acc =
        some (acc ++ kvs.toList, t)
  | .nil, _, hne, _, _, _, _, _, _, _, _, _ => absurd rfl hne
  | .cons k v tl, hw, _, t, f, pre, acc, hb, hf, hpre, hUniq, hFresh => by
    have hO : (plainL k.data && wfJ v && wfO tl) = true := hw
    simp only [Bool.and_eq_true] at hO
    obtain ⟨⟨hk, hvv⟩, htl⟩ := hO
    have efo0 : pFuelO (JObj.cons k v tl) = 1 + pFuelJ v + pFuelO tl := rfl
    cases f with
    | zero => omega
    | succ f2 =>
      have hfreshk : lookupKV acc k = none := hFresh (k, v) (List.mem_cons_self _ _)
      have hupd : updAssoc acc k v = acc ++ [(k, v)] :=
        updAssoc_not_mem acc k v ((lookupKV_eq_none_iff acc k).mp hfreshk)
      rw [parseMembers_succ, skipJWs_pre hpre _]
      cases tl with
      | nil =>
        rw [dumpsMembers_one, dumpsKV, escapeStr_plain _ hk]
        simp only [List.cons_append, List.append_assoc]
        rw [skipJWs_cons_not (by decide)]
        dsimp only
        rw [if_pos rfl,
          parseStrAux_plain k.data _ _ hk (by simp [List.length_append])]
        simp only [opt_bind_some]
        rw [skipJWs_cons_not (by decide), dropLit_one]
        simp only [opt_bind_some]
        rw [parseVal_ws_cons f2 (by decide),
          ptJ v hvv (rbrace :: t) f2 (Or.inr (Or.inl rfl)) (by omega)]
        simp only [opt_bind_some]
        rw [skipJWs_cons_not (by decide)]
        dsimp only
        rw [if_neg (by decide), if_pos rfl,
          show String.mk k.data = k from rfl, hupd, JObj_toList_cons, JObj_toList_nil]
      | cons k2 v2 tl' =>
        rw [dumpsMembers_cons, dumpsKV, escapeStr_plain _ hk]
        simp only [List.cons_append, List.append_assoc]
        rw [skipJWs_cons_not (by decide)]
        dsimp only
        rw [if_pos rfl,
          parseStrAux_plain k.data _ _ hk (by simp [List.length_append])]
        simp only [opt_bind_some]
        rw [skipJWs_cons_not (by decide), dropLit_one]
        simp only [opt_bind_some]
        rw [parseVal_ws_cons f2 (by decide),
          ptJ v hvv (',' :: ' ' :: (dumpsMembers (.cons k2 v2 tl') ++ (rbrace :: t))) f2
            (Or.inl rfl) (by omega)]
        simp only [opt_bind_some]
        rw [skipJWs_cons_not (by decide)]
        dsimp only
        rw [if_pos rfl]
        have hUniq' : keysUnique ((k, v) :: (JObj.cons k2 v2 tl').toList) = true := hUniq
        have hU2 := keysUnique_cons hUniq'
        have hFresh' : ∀ p ∈ (JObj.cons k2 v2 tl').toList,
            lookupKV (acc ++ [(k, v)]) p.1 = none := by
          intro p hp
          rw [lookupKV_eq_none_iff]
          simp only [List.map_append, List.mem_append, List.map_cons, List.map_nil,
            List.mem_singleton]
          rintro (hin | hin)
          · exact (lookupKV_eq_none_iff acc p.1).mp
              (hFresh p (List.mem_cons_of_mem _ hp)) hin
          · exact (lookupKV_eq_none_iff _ k).mp hU2.1
              (hin ▸ List.mem_map_of_mem Prod.fst hp)
        have hrec := ptO (.cons k2 v2 tl') htl (fun h => JObj.noConfusion h) t f2 [' ']
          (acc ++ [(k, v)]) hb (by omega) (Or.inr rfl) hU2.2 hFresh'
        simp only [List.singleton_append] at hrec
        rw [show String.mk k.data = k from rfl, hupd, hrec]
        rw [JObj_toList_cons k v, List.append_assoc]
        rfl
end

mutual
/-- The fuel measure of the parser is covered by the text length with
factor 3. -/
theorem pfJ : ∀ (v : Json), wfJ v = true → pFuelJ v ≤ 3 * (dumpsJ v).length
  | .null, _ => by decide
  | .bool true, _ => by decide
  | .bool false, _ => by decide
  | .num r, hv => by
    cases r with
    | nil => exact absurd (show wfJ (Json.num []) = true from hv) (by decide)
    | cons c r' =>
      show (1 : Nat) ≤ 3 * (c :: r').length
      simp only [List.length_cons]
      omega
  | .str s, _ => by
    show (1 : Nat) ≤ 3 * ('"' :: (escapeStr s.data ++ ['"'])).length
    simp only [List.length_cons, List.length_append]
    omega
  | .arr xs, hv => by
    have hx : wfL xs = true := hv
    have h1 := pfL xs hx
    show 2 + pFuelL xs ≤ 3 * ('[' :: (dumpsElems xs ++ [']'])).length
    simp only [List.length_cons, List.length_append]
    omega
  | .obj kvs, hv => by
    have h2 : (wfO kvs && keysUnique kvs.toList) = true := hv
    simp only [Bool.and_eq_true] at h2
    have h1 := pfO kvs h2.1
    show 2 + pFuelO kvs ≤ 3 * (lbrace :: (dumpsMembers kvs ++ [rbrace])).length
    simp only [List.length_cons, List.length_append]
    omega

theorem pfL : ∀ (xs : JList), wfL xs = true → pFuelL xs ≤ 3 * (dumpsElems xs).length + 1
  | .nil, _ => by decide
  | .cons x .nil, hv => by
    have hx : (wfJ x && wfL .nil) = true := hv
    simp only [Bool.and_eq_true] at hx
    have h1 := pfJ x hx.1
    show 1 + pFuelJ x + pFuelL .nil ≤ 3 * (dumpsElems (.cons x .nil)).length + 1
    rw [dumpsElems_one]
    have e0 : pFuelL JList.nil = 0 := rfl
    omega
  | .cons x (.cons y tl), hv => by
    have hx : (wfJ x && wfL (.cons y tl)) = true := hv
    simp only [Bool.and_eq_true] at hx
    have h1 := pfJ x hx.1
    have h2 := pfL (.cons y tl) hx.2
    show 1 + pFuelJ x + pFuelL (.cons y tl) ≤ 3 * (dumpsElems (.cons x (.cons y tl))).length + 1
    rw [dumpsElems_cons]
    simp only [List.length_append, List.length_cons]
    omega

theorem pfO : ∀ (kvs : JObj), wfO kvs = true → pFuelO kvs ≤ 3 * (dumpsMembers kvs).length + 1
  | .nil, _ => by decide
  | .cons k v .nil, hv => by
    have hO : (plainL k.data && wfJ v && wfO .nil) = true := hv
    simp only [Bool.and_eq_true] at hO
    have h1 := pfJ v hO.1.2
    show 1 + pFuelJ v + pFuelO .nil ≤ 3 * (dumpsMembers (.cons k v .nil)).length + 1
    rw [dumpsMembers_one, dumpsKV]
    simp only [List.length_cons, List.length_append]
    have e0 : pFuelO JObj.nil = 0 := rfl
    omega
  | .cons k v (.cons k2 v2 tl), hv => by
    have hO : (plainL k.data && wfJ v && wfO (.cons k2 v2 tl)) = true := hv
    simp only [Bool.and_eq_true] at hO
    have h1 := pfJ v hO.1.2
    have h2 := pfO (.cons k2 v2 tl) hO.2
    show 1 + pFuelJ v + pFuelO (.cons k2 v2 tl) ≤
      3 * (dumpsMembers (.cons k v (.cons k2 v2 tl))).length + 1
    rw [dumpsMembers_cons, dumpsKV]
    simp only [List.length_cons, List.length_append]
    omega
end

/-- json.loads inverts json.dumps on well-formed documents. -/
theorem loads_dumps (v : Json) (hv : wfJ v = true) : loads (dumpsJ v) = .ok v := by
  rw [loads]
  have hfu : pFuelJ v ≤ 3 * (dumpsJ v).length + 3 := by
    have := pfJ v hv
    omega
  have h := ptJ v hv [] (3 * (dumpsJ v).length + 3) True.intro hfu
  rw [List.append_nil] at h
  rw [h]
  rfl

theorem rewriteO_keys : ∀ (kvs : JObj),
    (rewriteO kvs).toList.map Prod.fst = kvs.toList.map Prod.fst
  | .nil => rfl
  | .cons k v tl => by
    rw [rewriteO_cons, JObj_toList_cons, JObj_toList_cons]
    simp [rewriteO_keys tl]

mutual
/-- The structural rewrite preserves well-formedness. -/
theorem wfRJ : ∀ (v : Json), wfJ v = true → wfJ (rewriteJ v) = true
  | .null, h => h
  | .bool _, h => h
  | .num _, h => h
  | .str _, h => h
  | .arr xs, h => by
    have hx : wfL xs = true := h
    show wfL (rewriteL xs) = true
    exact wfRL xs hx
  | .obj kvs, h => by
    have h2 : (wfO kvs && keysUnique kvs.toList) = true := h
    simp only [Bool.and_eq_true] at h2
    show (wfO (rewriteO kvs) && keysUnique (rewriteO kvs).toList) = true
    simp only [Bool.and_eq_true]
    refine ⟨wfRO kvs h2.1, ?_⟩
    rw [keysUnique_iff, rewriteO_keys]
    exact (keysUnique_iff _).mp h2.2

theorem wfRL : ∀ (xs : JList), wfL xs = true → wfL (rewriteL xs) = true
  | .nil, h => h
  | .cons x tl, h => by
    have h' : (wfJ x && wfL tl) = true := h
    simp only [Bool.and_eq_true] at h'
    show (wfJ (rewriteJ x) && wfL (rewriteL tl)) = true
    simp only [Bool.and_eq_true]
    exact ⟨wfRJ x h'.1, wfRL tl h'.2⟩

theorem wfRO : ∀ (kvs : JObj), wfO kvs = true → wfO (rewriteO kvs) = true
  | .nil, h => h
  | .cons k v tl, h => by
    have h' : (plainL k.data && wfJ v && wfO tl) = true := h
    simp only [Bool.and_eq_true] at h'
    show (plainL k.data && wfJ (rwVal k v) && wfO (rewriteO tl)) = true
    simp only [Bool.and_eq_true]
    refine ⟨⟨h'.1.1, ?_⟩, wfRO tl h'.2⟩
    by_cases hkr : k = "reference"
    · subst hkr
      rcases v with _ | b | r | s | xs | kvs'
      · rw [rwVal_ref_nonstr _ (fun s hh => Json.noConfusion hh)]
        exact wfRJ _ h'.1.2
      · rw [rwVal_ref_nonstr _ (fun s hh => Json.noConfusion hh)]
        exact wfRJ _ h'.1.2
      · rw [rwVal_ref_nonstr _ (fun s hh => Json.noConfusion hh)]
        exact wfRJ _ h'.1.2
      · rcases e : refShape s with _ | u
        · rw [show rwVal "reference" (.str s) = .str s from by
            rw [rwVal.eq_def, if_pos rfl]
            dsimp only
            rw [e]
            exact rewriteJ_str s]
          exact h'.1.2
        · rw [show rwVal "reference" (.str s) = .str ("urn:uuid:" ++ String.mk u) from by
            rw [rwVal.eq_def, if_pos rfl]
            dsimp only
            rw [e]]
          obtain ⟨hsd, _, _, _⟩ := refShape_decomp e
          have hvp : plainL s.data = true := h'.1.2
          have hpu : plainL u = true := by
            rw [plainL, List.all_eq_true]
            exact fun c hc => plainL_mem hvp
              (by rw [hsd]; exact List.mem_append_right _ (List.mem_cons_of_mem '/' hc))
          show plainL ("urn:uuid:" ++ String.mk u).data = true
          rw [String.data_append "urn:uuid:" (String.mk u)]
          show plainL ("urn:uuid:".data ++ u) = true
          rw [plainL, List.all_append]
          rw [plainL] at hpu
          rw [hpu]
          decide
      · rw [rwVal_ref_nonstr _ (fun s hh => Json.noConfusion hh)]
        exact wfRJ _ h'.1.2
      · rw [rwVal_ref_nonstr _ (fun s hh => Json.noConfusion hh)]
        exact wfRJ _ h'.1.2
    · rw [rwVal.eq_def, if_neg hkr]
      exact wfRJ v h'.1.2
end

/-- C4: for every well-formed bundle, standardize_references (dump, one
global re.sub pass, parse back) succeeds and returns exactly the
structural rewrite of the document: each string value of shape
Word/UUID (canonical 8-4-4-4-12 lowercase hex with hyphens) standing
under a key literally named "reference" becomes "urn:uuid:" followed by
the UUID, and every other value — including reference values not
matching the UUID shape — is left unchanged. -/
theorem claim_C4_standardize_references (p : Json) (hw : wfJ p = true) :
    standardize_references p = .ok (rewriteJ p) ∧
    (∀ s u, refShape s = some u →
      rwVal "reference" (.str s) = .str ("urn:uuid:" ++ String.mk u)) ∧
    (∀ s, refShape s = none → rwVal "reference" (.str s) = .str s) ∧
    (∀ k v, k ≠ "reference" → rwVal k v = rewriteJ v) := by
  refine ⟨?_, fun s u e => ?_, fun s e => ?_, fun k v hk => ?_⟩
  · rw [standardize_references, subst_dumps p hw, loads_dumps _ (wfRJ p hw)]
  · rw [rwVal.eq_def, if_pos rfl]
    dsimp only
    rw [e]
  · rw [rwVal.eq_def, if_pos rfl]
    dsimp only
    rw [e]
    exact rewriteJ_str s
  · rw [rwVal.eq_def, if_neg hk]

/-- Witness for C4 at a concrete bundle: the canonical-UUID reference is
rewritten to urn:uuid form, while "Patient/abc" under a reference key and
an identical-looking UUID string under a different key stay unchanged. -/
theorem claim_C4_witness :
    wfJ (jobj [("resourceType", Json.str "Bundle"),
      ("entry", jarr [jobj [("resource", jobj [
        ("subject",
          jobj [("reference", Json.str "Patient/550e8400-e29b-41d4-a716-446655440000")]),
        ("note", Json.str "Patient/550e8400-e29b-41d4-a716-446655440000"),
        ("other", jobj [("reference", Json.str "Patient/abc")])])]])]) = true ∧
    standardize_references (jobj [("resourceType", Json.str "Bundle"),
      ("entry", jarr [jobj [("resource", jobj [
        ("subject",
          jobj [("reference", Json.str "Patient/550e8400-e29b-41d4-a716-446655440000")]),
        ("note", Json.str "Patient/550e8400-e29b-41d4-a716-446655440000"),
        ("other", jobj [("reference", Json.str "Patient/abc")])])]])]) =
      .ok (jobj [("resourceType", Json.str "Bundle"),
        ("entry", jarr [jobj [("resource", jobj [
          ("subject",
            jobj [("reference", Json.str "urn:uuid:550e8400-e29b-41d4-a716-446655440000")]),
          ("note", Json.str "Patient/550e8400-e29b-41d4-a716-446655440000"),
          ("other", jobj [("reference", Json.str "Patient/abc")])])]])]) :=
  ⟨by decide, ((claim_C4_standardize_references _ (by decide)).1).trans (by decide)⟩

end Mcode
